import Mathlib

/-!
Verification of the segmented embedding-bag backward pipeline and the small
reduction kernels of this repository (`EmbeddingBag.cpp`, `ReduceOpAminmax.cpp`,
`ReduceOpLogical.cpp`).

The device kernels are modelled as pure Lean functions over lists.  Tensors of
gradient values are modelled one feature column at a time (the kernels treat
each `startFeature` slice independently, so a single column captures the whole
routing behaviour).  Floating-point values are idealised as rationals, except
for the min/max reduction where the NaN behaviour is the point of the claim and
the scalar is modelled as `Option ℚ` with `none` playing the role of NaN.
Machine integers are modelled as `Int`/`Nat` (no overflow is reachable in the
modelled index arithmetic).
-/

/-! ### Constants (EmbeddingBag.cpp lines 29-34) -/

def MODE_SUM : Int := 0

def MODE_MEAN : Int := 1

def MODE_MAX : Int := 2

def NROWS_PER_THREAD : Nat := 10

/-- `CeilDiv(a, b) = (a + b - 1) / b`, the helper used throughout the file
(named `CeilDivNat` here because Mathlib already owns the name `CeilDiv`). -/
def CeilDivNat (a b : Nat) : Nat := (a + b - 1) / b

/-! ### Segment discovery (EmbeddingBag.cpp lines 373-415)

`std::adjacent_difference` with the `lhs != rhs` comparator produces the mask
`dummy` (`dummy[i] = (sorted[i] != sorted[i-1])` for `i ≥ 1`), position `0` is
then forced to `1`; the `transform`/`copy_if` pair compacts the positions
carrying a `1` into `segment_offsets`. -/

def adjMaskGo : Int → List Int → List Bool
  | _, [] => []
  | prev, y :: ys => decide (y ≠ prev) :: adjMaskGo y ys

def adjacentDiffMask : List Int → List Bool
  | [] => []
  | x :: xs => true :: adjMaskGo x xs

/-- Compaction of the positions whose mask bit is set (`iota` + `transform` +
`copy_if` in the source); `i` is the position of the first mask entry. -/
def maskedPositions : List Bool → Nat → List Nat
  | [], _ => []
  | b :: bs, i => if b then i :: maskedPositions bs (i + 1) else maskedPositions bs (i + 1)

def segmentOffsets (sorted : List Int) : List Nat :=
  maskedPositions (adjacentDiffMask sorted) 0

/-- End of segment `j`:  `(id == num_of_segments - 1) ? numel : offsets[id+1]`
(EmbeddingBag.cpp lines 55-56, 180-181, 261-262, 327-330). -/
def segEndAt (offs : List Nat) (numel j : Nat) : Nat :=
  if j = offs.length - 1 then numel else offs.getD (j + 1) 0

/-! ### Partial-segment splitting (EmbeddingBag.cpp lines 36-111) -/

/-- `krn_partials_per_segment`: one thread per segment computes
`CeilDiv(size, NROWS_PER_THREAD)`. -/
def krn_partials_per_segment (segment_offsets : List Nat) (numel : Nat) : List Nat :=
  (List.range segment_offsets.length).map (fun id =>
    CeilDivNat (segEndAt segment_offsets numel id - segment_offsets.getD id 0) NROWS_PER_THREAD)

/-- `at::AtenIpexTypeXPU::exclusive_scan` with initial value `acc`. -/
def exclusiveScan : List Nat → Nat → List Nat
  | [], _ => []
  | x :: xs, acc => acc :: exclusiveScan xs (acc + x)

/-- The write loop of `krn_partial_segment_offset`
(`ret[idx++] = segment_offset + i * NROWS_PER_THREAD` for `i = 0..n-1`);
`v` carries the value `segment_offset + i * NROWS_PER_THREAD` of the current
iteration. -/
def krnWriteLoop : List Nat → Nat → Nat → Nat → List Nat
  | ret, _, _, 0 => ret
  | ret, idx, v, Nat.succ n => krnWriteLoop (ret.set idx v) (idx + 1) (v + NROWS_PER_THREAD) n

/-- One thread per segment: thread `id` receives the triple
`(partials_per_segment_offset[id], segment_offsets[id], partials_per_segment[id])`
and runs the write loop. -/
def writeSegments : List Nat → List (Nat × Nat × Nat) → List Nat
  | ret, [] => ret
  | ret, t :: rest => writeSegments (krnWriteLoop ret t.1 t.2.1 t.2.2) rest

/-- `krn_partial_segment_offset` (EmbeddingBag.cpp lines 71-111). -/
def krn_partial_segment_offset (ret partials partials_offset segment_offsets : List Nat) :
    List Nat :=
  writeSegments ret (partials_offset.zip (segment_offsets.zip partials))

/-- The start offsets `s + i * NROWS_PER_THREAD`, `i < c`, of the partial
segments of a segment starting at `s` that is split into `c` chunks. -/
def chunkStarts (s c : Nat) : List Nat :=
  (List.range c).map (fun i => s + i * NROWS_PER_THREAD)

/-! ### Gradient accumulation and scatter (EmbeddingBag.cpp lines 213-349)

Both kernels are modelled on a single feature column (a fixed `startFeature`);
`grad_output.getD row 0` stands for `grad_output[row * stride + startFeature]`. -/

/-- `compute_grad_weight` (non-bag variant, lines 213-280): one thread per
partial segment accumulates `grad_output[indices[idx]] * scale` over the
partial segment's range.  `count = none` models an undefined `count` tensor
(`scale = 1.0`), i.e. frequency scaling off. -/
def compute_grad_weight (indices : List Nat) (grad_output : List ℚ)
    (count : Option (List ℚ)) (numel : Nat) (segment_offsets : List Nat)
    (num_of_segments : Nat) : List ℚ :=
  (List.range num_of_segments).map (fun id =>
    let idx_begin := segment_offsets.getD id 0
    let idx_end := if id = num_of_segments - 1 then numel else segment_offsets.getD (id + 1) 0
    (List.range' idx_begin (idx_end - idx_begin)).foldl (fun w idx =>
      let scale : ℚ := match count with
        | none => 1
        | some c => 1 / c.getD idx 0
      w + grad_output.getD (indices.getD idx 0) 0 * scale) 0)

/-- The inner accumulation loop of `sum_and_scatter`
(`weight += grad_weight_per_segment[idx * stride + startFeature]`). -/
def partialRangeSum (gwps : List ℚ) (b e : Nat) : ℚ :=
  (List.range' b (e - b)).foldl (fun w idx => w + gwps.getD idx 0) 0

/-- `sum_and_scatter` (EmbeddingBag.cpp lines 282-349), single feature column:
for each segment, sum its partial sums and write the result to
`grad_weight[input[segment_offsets[id]]]` unless that row equals
`padding_idx`. -/
def sum_and_scatter (input : List Int) (grad_weight : List ℚ)
    (segment_offsets : List Nat) (grad_weight_per_segment : List ℚ)
    (segment_sizes_offsets : List Nat) (num_of_partial_segments : Nat)
    (padding_idx : Int) : List ℚ :=
  (List.range segment_offsets.length).foldl (fun gw id =>
    let idx_begin := segment_sizes_offsets.getD id 0
    let idx_end := if id = segment_offsets.length - 1 then num_of_partial_segments
      else segment_sizes_offsets.getD (id + 1) 0
    let weight := partialRangeSum grad_weight_per_segment idx_begin idx_end
    let target_row := input.getD (segment_offsets.getD id 0) 0
    if target_row ≠ padding_idx then gw.set target_row.toNat weight else gw) grad_weight

/-- Spec-side variant of `sum_and_scatter` with the padding guard removed:
every segment writes its row unconditionally.  Used to state that the padding
exclusion is unreachable when `padding_idx = -1` and all indices are
nonnegative. -/
def sum_and_scatter_nopad (input : List Int) (grad_weight : List ℚ)
    (segment_offsets : List Nat) (grad_weight_per_segment : List ℚ)
    (segment_sizes_offsets : List Nat) (num_of_partial_segments : Nat) : List ℚ :=
  (List.range segment_offsets.length).foldl (fun gw id =>
    let idx_begin := segment_sizes_offsets.getD id 0
    let idx_end := if id = segment_offsets.length - 1 then num_of_partial_segments
      else segment_sizes_offsets.getD (id + 1) 0
    let weight := partialRangeSum grad_weight_per_segment idx_begin idx_end
    let target_row := input.getD (segment_offsets.getD id 0) 0
    gw.set target_row.toNat weight) grad_weight

/-- The pair `(target_row, weight)` computed by thread `id` of
`sum_and_scatter`: the row written and the value written there. -/
def scatterF (input : List Int) (segment_offsets : List Nat)
    (grad_weight_per_segment : List ℚ) (segment_sizes_offsets : List Nat)
    (num_of_partial_segments : Nat) (id : Nat) : Int × ℚ :=
  (input.getD (segment_offsets.getD id 0) 0,
   partialRangeSum grad_weight_per_segment (segment_sizes_offsets.getD id 0)
     (if id = segment_offsets.length - 1 then num_of_partial_segments
       else segment_sizes_offsets.getD (id + 1) 0))

/-- Sum of `f` over the half-open position range `[b, e)`. -/
def sumRange (f : Nat → ℚ) (b e : Nat) : ℚ :=
  ((List.range' b (e - b)).map f).sum

/-- Sums of `f` over the consecutive ranges cut out by an offset list, the last
range ending at `N`: `cutSums f [b0, ..., bk] N = [Σ f over [b0,b1), ...,
Σ f over [bk, N)]`.  This is how both `compute_grad_weight` (over the partial
segment offsets) and `sum_and_scatter` (over the scanned per-segment counts)
read their range structure. -/
def cutSums (f : Nat → ℚ) : List Nat → Nat → List ℚ
  | [], _ => []
  | [b], N => [sumRange f b N]
  | b :: b' :: rest, N => sumRange f b b' :: cutSums f (b' :: rest) N

/-! ### The backward kernel pipeline (EmbeddingBag.cpp lines 351-507)

Modelled for the non-bag branch (`offset2bag` undefined, hence
`compute_grad_weight`), a single feature column, and a `count` argument that is
`none` when frequency scaling is off.  `orig_indices` holds the original
positions produced by the sort, `sorted_indices` the sorted index values;
`grad_weight` starts as `at::zeros({num_weights, ...})`. -/

def embedding_bag_backward_dpcpp_kernel (grad : List ℚ) (orig_indices : List Nat)
    (sorted_indices : List Int) (num_weights : Nat) (padding_idx : Int)
    (count : Option (List ℚ)) : List ℚ :=
  let numel := sorted_indices.length
  let grad_weight : List ℚ := List.replicate num_weights 0
  let segment_offsets := segmentOffsets sorted_indices
  let num_of_segments := segment_offsets.length
  let partials_per_segment := krn_partials_per_segment segment_offsets numel
  let partials_per_segment_offset := exclusiveScan partials_per_segment 0
  let num_of_partial_segments := partials_per_segment.getD (num_of_segments - 1) 0 +
    partials_per_segment_offset.getD (num_of_segments - 1) 0
  let partial_segment_offset := krn_partial_segment_offset
    (List.replicate num_of_partial_segments 0) partials_per_segment
    partials_per_segment_offset segment_offsets
  let grad_weight_per_segment := compute_grad_weight orig_indices grad count numel
    partial_segment_offset num_of_partial_segments
  sum_and_scatter sorted_indices grad_weight segment_offsets grad_weight_per_segment
    partials_per_segment_offset num_of_partial_segments padding_idx

/-- Spec-side variant of the kernel whose final stage is
`sum_and_scatter_nopad`; identical to `embedding_bag_backward_dpcpp_kernel`
in every other stage. -/
def embedding_bag_backward_kernel_nopad (grad : List ℚ) (orig_indices : List Nat)
    (sorted_indices : List Int) (num_weights : Nat) (count : Option (List ℚ)) : List ℚ :=
  let numel := sorted_indices.length
  let grad_weight : List ℚ := List.replicate num_weights 0
  let segment_offsets := segmentOffsets sorted_indices
  let num_of_segments := segment_offsets.length
  let partials_per_segment := krn_partials_per_segment segment_offsets numel
  let partials_per_segment_offset := exclusiveScan partials_per_segment 0
  let num_of_partial_segments := partials_per_segment.getD (num_of_segments - 1) 0 +
    partials_per_segment_offset.getD (num_of_segments - 1) 0
  let partial_segment_offset := krn_partial_segment_offset
    (List.replicate num_of_partial_segments 0) partials_per_segment
    partials_per_segment_offset segment_offsets
  let grad_weight_per_segment := compute_grad_weight orig_indices grad count numel
    partial_segment_offset num_of_partial_segments
  sum_and_scatter_nopad sorted_indices grad_weight segment_offsets grad_weight_per_segment
    partials_per_segment_offset num_of_partial_segments

/-- `embedding_bag_backward_dpcpp_sum_avg` (EmbeddingBag.cpp lines 653-742) in
the `scale_grad_by_freq = false` regime (so the `count` tensor stays undefined).
The sort of `(index, position)` pairs is performed by the caller of this model:
`sorted_indices`/`orig_indices` are its outputs, constrained by hypotheses in
the theorems.  On an empty index stream the function returns the zero gradient
without calling the kernel; otherwise it calls the kernel with
`padding_idx = -1` (line 735). -/
def embedding_bag_backward_dpcpp_sum_avg (grad : List ℚ) (indices : List Int)
    (orig_indices : List Nat) (sorted_indices : List Int) (num_weights : Nat) : List ℚ :=
  if indices.length = 0 then List.replicate num_weights 0
  else embedding_bag_backward_dpcpp_kernel grad orig_indices sorted_indices num_weights
    (-1) none

/-! ### Max-mode forward and backward (EmbeddingBag.cpp lines 511-651, 744-816) -/

/-- The max-mode accumulation of `EmbeddingBag_updateOutputKernel`
(lines 593-601, 631-637) for one bag and one feature: `inds` is the slice
`input[offsets[bag] .. end)`, `wv row` is `weightFeat[row * weight_stride0]`.
Returns the pair `(weightFeatMax, maxWord)` that the kernel stores into
`output` and `max_indices`; an empty bag yields `(0, -1)`. -/
def maxForward (inds : List Int) (wv : Int → ℚ) : ℚ × Int :=
  match inds with
  | [] => (0, -1)
  | x :: xs => xs.foldl (fun acc y => if wv y > acc.1 then (wv y, y) else acc) (wv x, x)

/-- `EmbeddingBag_accGradParametersKernel_max` (lines 744-795) for one feature
column: iterate over the bags (pairs of `max_indices[bag]` and
`gradOutput[bag]`), and `atomicAdd` the gradient into the recorded row when the
recorded index is nonnegative. -/
def EmbeddingBag_accGradParametersKernel_max : List (Int × ℚ) → List ℚ → List ℚ
  | [], gw => gw
  | (word_idx, g) :: rest, gw =>
    EmbeddingBag_accGradParametersKernel_max rest
      (if 0 ≤ word_idx then gw.set word_idx.toNat (gw.getD word_idx.toNat 0 + g) else gw)

/-! ### Min/max reduction (ReduceOpAminmax.cpp lines 25-65)

The accumulator scalar is modelled as `Option ℚ`, `none` standing for NaN:
every comparison against NaN is false and `isnan` detects it, which is the only
float behaviour the claim depends on. -/

def fpIsNan (a : Option ℚ) : Bool := a.isNone

def fpLt (a b : Option ℚ) : Bool :=
  match a, b with
  | some x, some y => decide (x < y)
  | _, _ => false

def fpGt (a b : Option ℚ) : Bool :=
  match a, b with
  | some x, some y => decide (x > y)
  | _, _ => false

/-- `MinMaxOps::combine` (lines 32-42). -/
def minmax_combine (a b : Option ℚ × Option ℚ) : Option ℚ × Option ℚ :=
  (if fpIsNan a.1 || fpLt a.1 b.1 then a.1 else b.1,
   if fpIsNan a.2 || fpGt a.2 b.2 then a.2 else b.2)

/-- `MinMaxOps::reduce` (lines 28-30): `combine(acc, {data, data})`. -/
def minmax_reduce (acc : Option ℚ × Option ℚ) (data : Option ℚ) : Option ℚ × Option ℚ :=
  minmax_combine acc (data, data)

/-- Sequential reduction of a list of input elements from the initial
accumulator (`{numeric_limits::max(), numeric_limits::lowest()}` at the
call site, lines 57-65). -/
def minmax_fold (init : Option ℚ × Option ℚ) (l : List (Option ℚ)) : Option ℚ × Option ℚ :=
  l.foldl minmax_reduce init

/-! ### Logical all/any reductions (ReduceOpLogical.cpp) -/

/-- `_all` (lines 53-67) over the reduced range, with `and_kernel`'s
`a && b` combine and identity `true`; an empty range short-circuits to
`result.fill_(1)` (modelled as `true`) without running the kernel. -/
def IXall (l : List Int) : Bool :=
  if l.length = 0 then true
  else l.foldl (fun acc a => acc && decide (a ≠ 0)) true

/-- `_any` (lines 104-118): `or_kernel` with identity `false`, empty range
short-circuits to `result.fill_(0)` (modelled as `false`). -/
def IXany (l : List Int) : Bool :=
  if l.length = 0 then false
  else l.foldl (fun acc a => acc || decide (a ≠ 0)) false

/-! ### Backward dispatch (EmbeddingBag.cpp lines 876-912) -/

inductive BackwardPath where
  | sumAvg : BackwardPath
  | maxPath : BackwardPath
deriving DecidableEq

/-- The `switch (mode)` of `_embedding_bag_dense_backward_dpcpp`: `MODE_SUM`
and `MODE_MEAN` fall through to the sum/avg path, `MODE_MAX` to the max path,
and any other mode hits `TORCH_CHECK(0, ...)`, modelled as `none`. -/
def embedding_bag_dense_backward_dispatch (mode : Int) : Option BackwardPath :=
  if mode = MODE_SUM then some BackwardPath.sumAvg
  else if mode = MODE_MEAN then some BackwardPath.sumAvg
  else if mode = MODE_MAX then some BackwardPath.maxPath
  else none

/-! ### Scalar-type dispatch for the max-mode backward (EmbeddingBag.cpp
lines 797-816, 846-870) -/

inductive ScalarType where
  | float : ScalarType
  | double : ScalarType
  | half : ScalarType
  | bfloat16 : ScalarType
deriving DecidableEq

/-- Models the external library's `tensor.data_ptr<float>()` contract: it
succeeds only when the tensor's element type is 32-bit float and raises a
type-check error otherwise. -/
def dataPtrFloat (dtype : ScalarType) : Option Unit :=
  if dtype = ScalarType.float then some () else none

/-- `embedding_bag_backward_dpcpp_max` always instantiates
`EmbeddingBag_accGradParametersKernel_max<float>` and obtains the gradient and
output pointers via `data_ptr<float>()` regardless of the gradient dtype
(lines 807-813); the call therefore succeeds only for float32. -/
def embedding_bag_backward_dpcpp_max (gradDtype : ScalarType) : Option Unit :=
  dataPtrFloat gradDtype

/-- The forward dispatch `IPEX_DISPATCH_FLOATING_TYPES_AND2(Half, BFloat16, ...)`
(lines 846-851) accepts exactly float, double, half and bfloat16 weights. -/
def embedding_bag_forward_dispatch_ok (dtype : ScalarType) : Bool :=
  match dtype with
  | ScalarType.float => true
  | ScalarType.double => true
  | ScalarType.half => true
  | ScalarType.bfloat16 => true

/-! ## Theorems -/

/-! ### Generic list access helpers -/

theorem getD_set_self {α : Type} (l : List α) (i : Nat) (x d : α) (h : i < l.length) :
    (l.set i x).getD i d = x := by
  rw [List.getD_eq_getElem _ _ (by simpa using h)]
  simp [List.getElem_set, h]

theorem getD_set_ne {α : Type} (l : List α) (i j : Nat) (x d : α) (h : i ≠ j) :
    (l.set i x).getD j d = l.getD j d := by
  by_cases hj : j < l.length
  · rw [List.getD_eq_getElem _ _ (by simpa using hj), List.getD_eq_getElem _ _ hj]
    simp [List.getElem_set, h]
  · rw [List.getD_eq_default _ _ (by simpa using Nat.le_of_not_lt hj),
      List.getD_eq_default _ _ (Nat.le_of_not_lt hj)]

theorem getD_replicate_zero (n i : Nat) : (List.replicate n (0 : ℚ)).getD i 0 = 0 := by
  by_cases hi : i < n
  · rw [List.getD_eq_getElem _ _ (by simpa using hi)]
    simp
  · rw [List.getD_eq_default]
    simpa using Nat.le_of_not_lt hi

/-- Claim C5: NaN propagates through the min/max pairwise reduction: the
combine operation of `MinMaxOps` returns a NaN component whenever either of its
two arguments' corresponding component is NaN, once the accumulator holds NaN
it stays NaN, and folding over any input list containing a NaN element yields
NaN in both the min and the max output. -/
theorem claim_C5_minmax_nan_propagation :
    (∀ a b : Option ℚ × Option ℚ,
      (fpIsNan a.1 || fpIsNan b.1) = true → fpIsNan (minmax_combine a b).1 = true) ∧
    (∀ a b : Option ℚ × Option ℚ,
      (fpIsNan a.2 || fpIsNan b.2) = true → fpIsNan (minmax_combine a b).2 = true) ∧
    (∀ acc b : Option ℚ × Option ℚ, fpIsNan acc.1 = true →
      fpIsNan (minmax_combine acc b).1 = true) ∧
    (∀ acc b : Option ℚ × Option ℚ, fpIsNan acc.2 = true →
      fpIsNan (minmax_combine acc b).2 = true) ∧
    (∀ (l : List (Option ℚ)) (init : Option ℚ × Option ℚ),
      (∃ x ∈ l, fpIsNan x = true) →
      fpIsNan (minmax_fold init l).1 = true ∧ fpIsNan (minmax_fold init l).2 = true) := by
  have key_min : ∀ a1 b1 : Option ℚ, (fpIsNan a1 || fpIsNan b1) = true →
      fpIsNan (if fpIsNan a1 || fpLt a1 b1 then a1 else b1) = true := by
    intro a1 b1 h
    cases a1 <;> cases b1 <;> simp_all [fpIsNan, fpLt]
  have key_max : ∀ a2 b2 : Option ℚ, (fpIsNan a2 || fpIsNan b2) = true →
      fpIsNan (if fpIsNan a2 || fpGt a2 b2 then a2 else b2) = true := by
    intro a2 b2 h
    cases a2 <;> cases b2 <;> simp_all [fpIsNan, fpGt]
  have hc1 : ∀ a b : Option ℚ × Option ℚ,
      (fpIsNan a.1 || fpIsNan b.1) = true → fpIsNan (minmax_combine a b).1 = true := by
    intro a b h
    exact key_min a.1 b.1 h
  have hc2 : ∀ a b : Option ℚ × Option ℚ,
      (fpIsNan a.2 || fpIsNan b.2) = true → fpIsNan (minmax_combine a b).2 = true := by
    intro a b h
    exact key_max a.2 b.2 h
  refine ⟨hc1, hc2, ?_, ?_, ?_⟩
  · intro acc b h; exact hc1 acc b (by simp [h])
  · intro acc b h; exact hc2 acc b (by simp [h])
  · intro l
    induction l with
    | nil =>
      intro init h
      rcases h with ⟨x, hx, _⟩
      cases hx
    | cons y ys ih =>
      intro init h
      rcases h with ⟨x, hx, hnan⟩
      rcases List.mem_cons.mp hx with rfl | hx'
      · -- the head is NaN: the new accumulator is NaN in both components and
        -- stays NaN through the rest of the fold
        have hstay : ∀ (zs : List (Option ℚ)) (acc : Option ℚ × Option ℚ),
            fpIsNan acc.1 = true → fpIsNan acc.2 = true →
            fpIsNan (minmax_fold acc zs).1 = true ∧ fpIsNan (minmax_fold acc zs).2 = true := by
          intro zs
          induction zs with
          | nil => intro acc h1 h2; exact ⟨h1, h2⟩
          | cons z zs ihz =>
            intro acc h1 h2
            exact ihz _ (hc1 acc (z, z) (by simp [h1])) (hc2 acc (z, z) (by simp [h2]))
        have h1 : fpIsNan (minmax_reduce init x).1 = true :=
          hc1 init (x, x) (by simp [hnan])
        have h2 : fpIsNan (minmax_reduce init x).2 = true :=
          hc2 init (x, x) (by simp [hnan])
        exact hstay ys _ h1 h2
      · exact ih _ ⟨x, hx', hnan⟩

/-- Claim C5 witness: the combine and fold NaN propagation instantiated on a
concrete input containing a NaN. -/
theorem claim_C5_minmax_nan_propagation_witness :
    fpIsNan (minmax_fold (some 100, some (-100)) [some 1, none, some 2]).1 = true ∧
    fpIsNan (minmax_fold (some 100, some (-100)) [some 1, none, some 2]).2 = true :=
  claim_C5_minmax_nan_propagation.2.2.2.2 [some 1, none, some 2] (some 100, some (-100))
    (Exists.intro (none : Option ℚ) (And.intro (by decide) (by decide)))

/-- Claim C7: over an empty reduced range, `_all` fills the result with `1`
(true) and `_any` fills it with `0` (false), by the short-circuit branch taken
before any reduction kernel is dispatched. -/
theorem claim_C7_empty_all_any (l : List Int) (h : l.length = 0) :
    IXall l = true ∧ IXany l = false := by
  constructor
  · simp [IXall, h]
  · simp [IXany, h]

/-- Claim C7 witness: the empty input. -/
theorem claim_C7_empty_all_any_witness :
    ([] : List Int).length = 0 ∧ (IXall [] = true ∧ IXany [] = false) :=
  ⟨by decide, claim_C7_empty_all_any [] (by decide)⟩

/-- Claim C8: the dense backward dispatch sends `MODE_SUM` and `MODE_MEAN` to
the sum/avg path and `MODE_MAX` to the max path, and any integer mode outside
`{0, 1, 2}` falls into the `TORCH_CHECK(0, ...)` default branch (modelled as
`none`) before any kernel is invoked. -/
theorem claim_C8_mode_dispatch (mode : Int) :
    (mode ≠ 0 ∧ mode ≠ 1 ∧ mode ≠ 2 → embedding_bag_dense_backward_dispatch mode = none) ∧
    (mode = 0 ∨ mode = 1 → embedding_bag_dense_backward_dispatch mode = some BackwardPath.sumAvg) ∧
    (mode = 2 → embedding_bag_dense_backward_dispatch mode = some BackwardPath.maxPath) := by
  refine ⟨?_, ?_, ?_⟩
  · rintro ⟨h0, h1, h2⟩
    simp [embedding_bag_dense_backward_dispatch, MODE_SUM, MODE_MEAN, MODE_MAX, h0, h1, h2]
  · rintro (rfl | rfl) <;>
      simp [embedding_bag_dense_backward_dispatch, MODE_SUM, MODE_MEAN, MODE_MAX]
  · rintro rfl
    simp [embedding_bag_dense_backward_dispatch, MODE_SUM, MODE_MEAN, MODE_MAX]

/-- Claim C8 witness: mode `7` is rejected, modes `0`, `1`, `2` dispatch to
their paths. -/
theorem claim_C8_mode_dispatch_witness :
    embedding_bag_dense_backward_dispatch 7 = none ∧
    embedding_bag_dense_backward_dispatch 0 = some BackwardPath.sumAvg ∧
    embedding_bag_dense_backward_dispatch 1 = some BackwardPath.sumAvg ∧
    embedding_bag_dense_backward_dispatch 2 = some BackwardPath.maxPath :=
  ⟨(claim_C8_mode_dispatch 7).1 (by decide),
   (claim_C8_mode_dispatch 0).2.1 (Or.inl rfl),
   (claim_C8_mode_dispatch 1).2.1 (Or.inr rfl),
   (claim_C8_mode_dispatch 2).2.2 rfl⟩

/-- Claim C9: the max-mode backward is instantiated only for 32-bit float: the
call fails at the `data_ptr<float>` type check for every gradient dtype other
than float32 and succeeds for float32, while the forward dispatch accepts
float, double, half and bfloat16 weights. -/
theorem claim_C9_max_backward_float_only (dtype : ScalarType) :
    (dtype ≠ ScalarType.float → embedding_bag_backward_dpcpp_max dtype = none) ∧
    embedding_bag_backward_dpcpp_max ScalarType.float = some () ∧
    embedding_bag_forward_dispatch_ok dtype = true := by
  refine ⟨?_, by decide, ?_⟩
  · intro h
    simp [embedding_bag_backward_dpcpp_max, dataPtrFloat, h]
  · cases dtype <;> decide

/-- Claim C9 witness: a bfloat16 gradient is rejected by the max backward even
though the forward dispatch accepts bfloat16. -/
theorem claim_C9_max_backward_float_only_witness :
    embedding_bag_backward_dpcpp_max ScalarType.bfloat16 = none ∧
    embedding_bag_backward_dpcpp_max ScalarType.float = some () ∧
    embedding_bag_forward_dispatch_ok ScalarType.bfloat16 = true :=
  ⟨(claim_C9_max_backward_float_only ScalarType.bfloat16).1 (by decide),
   (claim_C9_max_backward_float_only ScalarType.float).2.1,
   (claim_C9_max_backward_float_only ScalarType.bfloat16).2.2⟩

/-! ### Claim C6: max-mode tie-breaking and backward scatter -/

/-- Characterisation of the max-mode accumulation loop starting from an
arbitrary accumulator `(m, w)`: either no element strictly improves on `m`
and the accumulator is returned unchanged, or the result is the first element
that attains the running maximum (strict-greater comparison keeps the first). -/
theorem maxForward_foldl_spec (wv : Int → ℚ) :
    ∀ (xs : List Int) (m : ℚ) (w : Int),
      (xs.foldl (fun acc y => if wv y > acc.1 then (wv y, y) else acc) (m, w) = (m, w) ∧
        ∀ t, t < xs.length → wv (xs.getD t 0) ≤ m) ∨
      (∃ i, i < xs.length ∧
        xs.foldl (fun acc y => if wv y > acc.1 then (wv y, y) else acc) (m, w) =
          (wv (xs.getD i 0), xs.getD i 0) ∧
        m < wv (xs.getD i 0) ∧
        (∀ t, t < xs.length → wv (xs.getD t 0) ≤ wv (xs.getD i 0)) ∧
        (∀ t, t < i → wv (xs.getD t 0) < wv (xs.getD i 0))) := by
  intro xs
  induction xs with
  | nil =>
    intro m w
    left
    exact ⟨rfl, by intro t ht; simp at ht⟩
  | cons y ys ih =>
    intro m w
    by_cases hy : wv y > m
    · have hstep : (y :: ys).foldl (fun acc y => if wv y > acc.1 then (wv y, y) else acc) (m, w) =
          ys.foldl (fun acc y => if wv y > acc.1 then (wv y, y) else acc) (wv y, y) := by
        simp [hy]
      rcases ih (wv y) y with ⟨heq, hall⟩ | ⟨i, hi, heq, hgt, hall, hfirst⟩
      · right
        refine ⟨0, by simp, ?_, ?_, ?_, ?_⟩
        · rw [hstep, heq]; simp
        · simpa using hy
        · intro t ht
          cases t with
          | zero => simp
          | succ t =>
            simp only [List.getD_cons_succ, List.getD_cons_zero]
            exact hall t (by simpa using ht)
        · intro t ht; simp at ht
      · right
        refine ⟨i + 1, by simpa using hi, ?_, ?_, ?_, ?_⟩
        · rw [hstep, heq]; simp
        · calc m < wv y := hy
            _ < wv (ys.getD i 0) := hgt
        · intro t ht
          cases t with
          | zero =>
            simp only [List.getD_cons_zero, List.getD_cons_succ]
            exact le_of_lt hgt
          | succ t =>
            simp only [List.getD_cons_succ]
            exact hall t (by simpa using ht)
        · intro t ht
          cases t with
          | zero =>
            simp only [List.getD_cons_zero, List.getD_cons_succ]
            exact hgt
          | succ t =>
            simp only [List.getD_cons_succ]
            exact hfirst t (by omega)
    · have hstep : (y :: ys).foldl (fun acc y => if wv y > acc.1 then (wv y, y) else acc) (m, w) =
          ys.foldl (fun acc y => if wv y > acc.1 then (wv y, y) else acc) (m, w) := by
        simp [hy]
      have hyle : wv y ≤ m := le_of_not_lt hy
      rcases ih m w with ⟨heq, hall⟩ | ⟨i, hi, heq, hgt, hall, hfirst⟩
      · left
        refine ⟨by rw [hstep, heq], ?_⟩
        intro t ht
        cases t with
        | zero => simpa using hyle
        | succ t =>
          simp only [List.getD_cons_succ]
          exact hall t (by simpa using ht)
      · right
        refine ⟨i + 1, by simpa using hi, ?_, hgt, ?_, ?_⟩
        · rw [hstep, heq]; simp
        · intro t ht
          cases t with
          | zero =>
            simp only [List.getD_cons_zero, List.getD_cons_succ]
            exact le_of_lt (lt_of_le_of_lt hyle hgt)
          | succ t =>
            simp only [List.getD_cons_succ]
            exact hall t (by simpa using ht)
        · intro t ht
          cases t with
          | zero =>
            simp only [List.getD_cons_zero, List.getD_cons_succ]
            exact lt_of_le_of_lt hyle hgt
          | succ t =>
            simp only [List.getD_cons_succ]
            exact hfirst t (by omega)

/-- The max-mode backward scatter adds, to every output row `r`, exactly the
gradients of the bags whose recorded argmax row is `r`; bags with a negative
recorded index contribute to no row. -/
theorem accGradMax_getD :
    ∀ (bags : List (Int × ℚ)) (gw : List ℚ) (r : Nat), r < gw.length →
      (EmbeddingBag_accGradParametersKernel_max bags gw).getD r 0 =
        gw.getD r 0 +
          ((bags.filter (fun p => decide (0 ≤ p.1) && decide (p.1.toNat = r))).map Prod.snd).sum := by
  intro bags
  induction bags with
  | nil =>
    intro gw r hr
    simp [EmbeddingBag_accGradParametersKernel_max]
  | cons p rest ih =>
    intro gw r hr
    obtain ⟨w, g⟩ := p
    by_cases h0 : 0 ≤ w
    · by_cases hw : w.toNat = r
      · have hgoal : EmbeddingBag_accGradParametersKernel_max ((w, g) :: rest) gw =
            EmbeddingBag_accGradParametersKernel_max rest
              (gw.set w.toNat (gw.getD w.toNat 0 + g)) := by
          simp [EmbeddingBag_accGradParametersKernel_max, h0]
        rw [hgoal, ih _ r (by simpa using hr)]
        rw [hw, getD_set_self _ _ _ _ hr]
        have hfil : ((w, g) :: rest).filter
            (fun p => decide (0 ≤ p.1) && decide (p.1.toNat = r)) =
            (w, g) :: rest.filter (fun p => decide (0 ≤ p.1) && decide (p.1.toNat = r)) := by
          simp [List.filter_cons, h0, hw]
        rw [hfil]
        simp [add_assoc]
      · have hgoal : EmbeddingBag_accGradParametersKernel_max ((w, g) :: rest) gw =
            EmbeddingBag_accGradParametersKernel_max rest
              (gw.set w.toNat (gw.getD w.toNat 0 + g)) := by
          simp [EmbeddingBag_accGradParametersKernel_max, h0]
        rw [hgoal, ih _ r (by simpa using hr)]
        rw [getD_set_ne _ _ _ _ _ hw]
        have hfil : ((w, g) :: rest).filter
            (fun p => decide (0 ≤ p.1) && decide (p.1.toNat = r)) =
            rest.filter (fun p => decide (0 ≤ p.1) && decide (p.1.toNat = r)) := by
          simp [List.filter_cons, hw]
        rw [hfil]
    · have hgoal : EmbeddingBag_accGradParametersKernel_max ((w, g) :: rest) gw =
          EmbeddingBag_accGradParametersKernel_max rest gw := by
        simp [EmbeddingBag_accGradParametersKernel_max, h0]
      rw [hgoal, ih _ r hr]
      have hfil : ((w, g) :: rest).filter
          (fun p => decide (0 ≤ p.1) && decide (p.1.toNat = r)) =
          rest.filter (fun p => decide (0 ≤ p.1) && decide (p.1.toNat = r)) := by
        simp [List.filter_cons, h0]
      rw [hfil]

/-- Claim C6: in max-mode forward pooling, with the strict-greater comparison,
the recorded argmax of a nonempty bag is the first lookup (in bag-internal
iteration order) attaining the maximal weight value, and its recorded output
value is that maximum; an empty bag records the sentinel `-1` with output `0`.
The max-mode backward adds each bag's gradient to exactly the recorded row, and
bags whose recorded index is negative contribute nothing. -/
theorem claim_C6_max_mode_tie_break_and_backward :
    (∀ (inds : List Int) (wv : Int → ℚ), inds ≠ [] →
      ∃ i0, i0 < inds.length ∧
        (maxForward inds wv).2 = inds.getD i0 0 ∧
        (maxForward inds wv).1 = wv (inds.getD i0 0) ∧
        (∀ t, t < inds.length → wv (inds.getD t 0) ≤ wv (inds.getD i0 0)) ∧
        (∀ t, t < i0 → wv (inds.getD t 0) < wv (inds.getD i0 0))) ∧
    (∀ wv : Int → ℚ, maxForward [] wv = (0, -1)) ∧
    (∀ (bags : List (Int × ℚ)) (gw : List ℚ) (r : Nat), r < gw.length →
      (EmbeddingBag_accGradParametersKernel_max bags gw).getD r 0 =
        gw.getD r 0 +
          ((bags.filter (fun p => decide (0 ≤ p.1) && decide (p.1.toNat = r))).map
            Prod.snd).sum) := by
  refine ⟨?_, fun wv => rfl, accGradMax_getD⟩
  intro inds wv hne
  match inds with
  | x :: xs =>
    have hmf : maxForward (x :: xs) wv =
        xs.foldl (fun acc y => if wv y > acc.1 then (wv y, y) else acc) (wv x, x) := rfl
    rcases maxForward_foldl_spec wv xs (wv x) x with ⟨heq, hall⟩ | ⟨i, hi, heq, hgt, hall, hfirst⟩
    · refine ⟨0, by simp, ?_, ?_, ?_, ?_⟩
      · rw [hmf, heq]; simp
      · rw [hmf, heq]; simp
      · intro t ht
        cases t with
        | zero => simp
        | succ t =>
          simp only [List.getD_cons_succ, List.getD_cons_zero]
          exact hall t (by simpa using ht)
      · intro t ht; simp at ht
    · refine ⟨i + 1, by simpa using hi, ?_, ?_, ?_, ?_⟩
      · rw [hmf, heq]; simp
      · rw [hmf, heq]; simp
      · intro t ht
        cases t with
        | zero =>
          simp only [List.getD_cons_zero, List.getD_cons_succ]
          exact le_of_lt hgt
        | succ t =>
          simp only [List.getD_cons_succ]
          exact hall t (by simpa using ht)
      · intro t ht
        cases t with
        | zero =>
          simp only [List.getD_cons_zero, List.getD_cons_succ]
          exact hgt
        | succ t =>
          simp only [List.getD_cons_succ]
          exact hfirst t (by omega)

/-- Claim C6 witness: bag `[5, 2, 5]` with weights `w 5 = 3, w 2 = 1`: the
first of the two tied maximal lookups (position 0, row 5) is recorded; the
backward scatter routes gradients of bags `[(5, 10), (-1, 7), (5, 4)]` into
row 5 only, ignoring the empty-bag sentinel `-1`. -/
theorem claim_C6_max_mode_tie_break_and_backward_witness :
    (∃ i0, i0 < ([5, 2, 5] : List Int).length ∧
      (maxForward [5, 2, 5] (fun r => if r = 5 then 3 else 1)).2 =
        ([5, 2, 5] : List Int).getD i0 0 ∧
      (maxForward [5, 2, 5] (fun r => if r = 5 then 3 else 1)).1 =
        (fun r : Int => if r = 5 then (3 : ℚ) else 1) (([5, 2, 5] : List Int).getD i0 0) ∧
      (∀ t, t < ([5, 2, 5] : List Int).length →
        (fun r : Int => if r = 5 then (3 : ℚ) else 1) (([5, 2, 5] : List Int).getD t 0) ≤
          (fun r : Int => if r = 5 then (3 : ℚ) else 1) (([5, 2, 5] : List Int).getD i0 0)) ∧
      (∀ t, t < i0 →
        (fun r : Int => if r = 5 then (3 : ℚ) else 1) (([5, 2, 5] : List Int).getD t 0) <
          (fun r : Int => if r = 5 then (3 : ℚ) else 1) (([5, 2, 5] : List Int).getD i0 0))) ∧
    (EmbeddingBag_accGradParametersKernel_max [((5 : Int), (10 : ℚ)), (-1, 7), (5, 4)]
        (List.replicate 8 0)).getD 5 0 =
      (List.replicate 8 (0 : ℚ)).getD 5 0 +
        (([((5 : Int), (10 : ℚ)), (-1, 7), (5, 4)].filter
          (fun p => decide (0 ≤ p.1) && decide (p.1.toNat = 5))).map Prod.snd).sum :=
  ⟨claim_C6_max_mode_tie_break_and_backward.1 [5, 2, 5]
      (fun r => if r = 5 then 3 else 1) (by decide),
   claim_C6_max_mode_tie_break_and_backward.2.2 [((5 : Int), (10 : ℚ)), (-1, 7), (5, 4)]
      (List.replicate 8 0) 5 (by decide)⟩

/-! ### Segment-discovery lemmas (towards Claims C2, C1) -/

theorem maskedPositions_cons_true (bs : List Bool) (i : Nat) :
    maskedPositions (true :: bs) i = i :: maskedPositions bs (i + 1) := rfl

theorem maskedPositions_cons_false (bs : List Bool) (i : Nat) :
    maskedPositions (false :: bs) i = maskedPositions bs (i + 1) := rfl

theorem maskedPositions_mem_bound :
    ∀ (m : List Bool) (i x : Nat), x ∈ maskedPositions m i → i ≤ x ∧ x < i + m.length := by
  intro m
  induction m with
  | nil => intro i x hx; simp [maskedPositions] at hx
  | cons b bs ih =>
    intro i x hx
    by_cases hb : b = true
    · subst hb
      rw [maskedPositions_cons_true] at hx
      rcases List.mem_cons.mp hx with rfl | hx'
      · simp
      · have := ih (i + 1) x hx'
        constructor <;> [omega; (simp only [List.length_cons]; omega)]
    · have hb' : b = false := by simpa using hb
      subst hb'
      rw [maskedPositions_cons_false] at hx
      have := ih (i + 1) x hx
      constructor <;> [omega; (simp only [List.length_cons]; omega)]

theorem maskedPositions_pairwise :
    ∀ (m : List Bool) (i : Nat), (maskedPositions m i).Pairwise (· < ·) := by
  intro m
  induction m with
  | nil => intro i; simp [maskedPositions]
  | cons b bs ih =>
    intro i
    by_cases hb : b = true
    · subst hb
      rw [maskedPositions_cons_true]
      refine List.Pairwise.cons ?_ (ih (i + 1))
      intro y hy
      have := maskedPositions_mem_bound bs (i + 1) y hy
      omega
    · have hb' : b = false := by simpa using hb
      subst hb'
      rw [maskedPositions_cons_false]
      exact ih (i + 1)

theorem maskedPositions_mem_iff :
    ∀ (m : List Bool) (i x : Nat),
      x ∈ maskedPositions m i ↔ ∃ t, t < m.length ∧ m.getD t false = true ∧ x = i + t := by
  intro m
  induction m with
  | nil =>
    intro i x
    simp [maskedPositions]
  | cons b bs ih =>
    intro i x
    by_cases hb : b = true
    · subst hb
      rw [maskedPositions_cons_true]
      constructor
      · intro hx
        rcases List.mem_cons.mp hx with rfl | hx'
        · exact ⟨0, by simp, by simp, by omega⟩
        · rcases (ih (i + 1) x).mp hx' with ⟨t, ht, hm, hx⟩
          exact ⟨t + 1, by simpa using ht, by simpa using hm, by omega⟩
      · rintro ⟨t, ht, hm, rfl⟩
        cases t with
        | zero => simp
        | succ t =>
          refine List.mem_cons.mpr (Or.inr ?_)
          refine (ih (i + 1) _).mpr ⟨t, by simpa using ht, by simpa using hm, by omega⟩
    · have hb' : b = false := by simpa using hb
      subst hb'
      rw [maskedPositions_cons_false]
      constructor
      · intro hx
        rcases (ih (i + 1) x).mp hx with ⟨t, ht, hm, hx⟩
        exact ⟨t + 1, by simpa using ht, by simpa using hm, by omega⟩
      · rintro ⟨t, ht, hm, rfl⟩
        cases t with
        | zero => simp at hm
        | succ t =>
          refine (ih (i + 1) _).mpr ⟨t, by simpa using ht, by simpa using hm, by omega⟩

theorem adjMaskGo_length : ∀ (xs : List Int) (prev : Int),
    (adjMaskGo prev xs).length = xs.length := by
  intro xs
  induction xs with
  | nil => intro prev; rfl
  | cons y ys ih => intro prev; simp [adjMaskGo, ih y]

theorem adjacentDiffMask_length (s : List Int) : (adjacentDiffMask s).length = s.length := by
  cases s with
  | nil => rfl
  | cons x xs => simp [adjacentDiffMask, adjMaskGo_length]

theorem adjMaskGo_getD : ∀ (xs : List Int) (prev : Int) (t : Nat), t < xs.length →
    (adjMaskGo prev xs).getD t false =
      decide (xs.getD t 0 ≠ (if t = 0 then prev else xs.getD (t - 1) 0)) := by
  intro xs
  induction xs with
  | nil => intro prev t ht; simp at ht
  | cons y ys ih =>
    intro prev t ht
    cases t with
    | zero => simp [adjMaskGo]
    | succ t =>
      simp only [adjMaskGo, List.getD_cons_succ]
      rw [ih y t (by simpa using ht)]
      cases t with
      | zero => simp
      | succ t => simp

theorem adjacentDiffMask_getD (s : List Int) (t : Nat) (ht : t < s.length) :
    (adjacentDiffMask s).getD t false =
      (if t = 0 then true else decide (s.getD t 0 ≠ s.getD (t - 1) 0)) := by
  cases s with
  | nil => simp at ht
  | cons x xs =>
    cases t with
    | zero => simp [adjacentDiffMask]
    | succ t =>
      simp only [adjacentDiffMask, List.getD_cons_succ]
      rw [adjMaskGo_getD xs x t (by simpa using ht)]
      cases t with
      | zero => simp
      | succ t => simp

theorem segmentOffsets_mem_iff (s : List Int) (p : Nat) :
    p ∈ segmentOffsets s ↔
      p < s.length ∧ (p = 0 ∨ s.getD p 0 ≠ s.getD (p - 1) 0) := by
  rw [segmentOffsets, maskedPositions_mem_iff]
  constructor
  · rintro ⟨t, ht, hm, rfl⟩
    rw [adjacentDiffMask_length] at ht
    rw [adjacentDiffMask_getD s t ht] at hm
    refine ⟨by simpa using ht, ?_⟩
    by_cases h0 : t = 0
    · left; omega
    · right
      rw [if_neg h0] at hm
      simpa using of_decide_eq_true hm
  · rintro ⟨hp, hor⟩
    refine ⟨p, by simpa [adjacentDiffMask_length] using hp, ?_, by omega⟩
    rw [adjacentDiffMask_getD s p hp]
    rcases hor with rfl | hne
    · simp
    · by_cases h0 : p = 0
      · simp [h0]
      · rw [if_neg h0]
        exact decide_eq_true hne

theorem segmentOffsets_pairwise (s : List Int) : (segmentOffsets s).Pairwise (· < ·) :=
  maskedPositions_pairwise _ 0

theorem segmentOffsets_bound (s : List Int) : ∀ x ∈ segmentOffsets s, x < s.length := by
  intro x hx
  exact ((segmentOffsets_mem_iff s x).mp hx).1

theorem segmentOffsets_cons (x : Int) (xs : List Int) :
    segmentOffsets (x :: xs) = 0 :: maskedPositions (adjMaskGo x xs) 1 := by
  simp [segmentOffsets, adjacentDiffMask, maskedPositions]

theorem segmentOffsets_ne_nil (s : List Int) (h : s ≠ []) : segmentOffsets s ≠ [] := by
  cases s with
  | nil => exact absurd rfl h
  | cons x xs => rw [segmentOffsets_cons]; exact List.cons_ne_nil _ _

theorem segmentOffsets_getD_zero (s : List Int) (h : s ≠ []) :
    (segmentOffsets s).getD 0 0 = 0 := by
  cases s with
  | nil => exact absurd rfl h
  | cons x xs => rw [segmentOffsets_cons]; rfl

/-! ### Interval structure of the segment offsets -/

theorem pairwise_lt_getD {l : List Nat} (h : l.Pairwise (· < ·)) {i j : Nat}
    (hij : i < j) (hj : j < l.length) : l.getD i 0 < l.getD j 0 := by
  have hi : i < l.length := lt_trans hij hj
  rw [List.getD_eq_getElem _ _ hi, List.getD_eq_getElem _ _ hj]
  exact List.pairwise_iff_getElem.mp h i j hi hj hij

theorem pairwise_le_getD {l : List Nat} (h : l.Pairwise (· < ·)) {i j : Nat}
    (hij : i ≤ j) (hj : j < l.length) : l.getD i 0 ≤ l.getD j 0 := by
  rcases lt_or_eq_of_le hij with hlt | rfl
  · exact le_of_lt (pairwise_lt_getD h hlt hj)
  · exact le_refl _

theorem mem_getD_of_mem {l : List Nat} {x : Nat} (h : x ∈ l) :
    ∃ t, t < l.length ∧ l.getD t 0 = x := by
  rcases List.mem_iff_getElem.mp h with ⟨t, ht, hx⟩
  exact ⟨t, ht, by rw [List.getD_eq_getElem _ _ ht]; exact hx⟩

theorem getD_mem {α : Type} {l : List α} {d : α} {t : Nat} (ht : t < l.length) :
    l.getD t d ∈ l := by
  rw [List.getD_eq_getElem _ _ ht]
  exact List.getElem_mem ht

/-- Existence part of the partition property: every position below the bound
falls into some interval `[xs[j], xs[j+1])` (the last interval ending at the
bound) of a strictly increasing offset list whose head is at or below `p`. -/
theorem cut_cover_exists :
    ∀ (xs : List Nat) (b p : Nat), xs.Pairwise (· < ·) → (∀ x ∈ xs, x < b) →
      p < b → xs ≠ [] → xs.getD 0 0 ≤ p →
      ∃ j, j < xs.length ∧ xs.getD j 0 ≤ p ∧
        p < (if j = xs.length - 1 then b else xs.getD (j + 1) 0) := by
  intro xs
  induction xs with
  | nil => intro b p _ _ _ hne _; exact absurd rfl hne
  | cons h0 t ih =>
    intro b p hpw hbd hp _ hhead
    cases t with
    | nil =>
      refine ⟨0, by simp, by simpa using hhead, ?_⟩
      have hc : (0 : Nat) = (h0 :: ([] : List Nat)).length - 1 := by simp
      rw [if_pos hc]
      exact hp
    | cons h1 t1 =>
      by_cases hple : p < h1
      · refine ⟨0, by simp, by simpa using hhead, ?_⟩
        have hlen : (h0 :: h1 :: t1).length - 1 ≠ 0 := by simp
        rw [if_neg (by simp)]
        simpa using hple
      · have hh1 : h1 ≤ p := Nat.le_of_not_lt hple
        have hpw' : (h1 :: t1).Pairwise (· < ·) := List.Pairwise.of_cons hpw
        have hbd' : ∀ x ∈ h1 :: t1, x < b := fun x hx => hbd x (List.mem_cons_of_mem _ hx)
        rcases ih b p hpw' hbd' hp (List.cons_ne_nil _ _) (by simpa using hh1) with
          ⟨j, hj, hle, hlt⟩
        refine ⟨j + 1, by simpa using hj, by simpa using hle, ?_⟩
        have : (j + 1 = (h0 :: h1 :: t1).length - 1) ↔ (j = (h1 :: t1).length - 1) := by
          simp only [List.length_cons]
          omega
        by_cases hj' : j = (h1 :: t1).length - 1
        · rw [if_pos (this.mpr hj')]
          rw [if_pos hj'] at hlt
          exact hlt
        · rw [if_neg (fun hc => hj' (this.mp hc))]
          rw [if_neg hj'] at hlt
          simpa using hlt

/-- Uniqueness part of the partition property for a strictly increasing offset
list: two intervals cannot both contain `p`. -/
theorem cut_cover_unique (xs : List Nat) (b p : Nat) (hpw : xs.Pairwise (· < ·))
    (j1 j2 : Nat) (hj1 : j1 < xs.length) (hj2 : j2 < xs.length)
    (h1 : xs.getD j1 0 ≤ p ∧ p < (if j1 = xs.length - 1 then b else xs.getD (j1 + 1) 0))
    (h2 : xs.getD j2 0 ≤ p ∧ p < (if j2 = xs.length - 1 then b else xs.getD (j2 + 1) 0)) :
    j1 = j2 := by
  by_contra hne
  -- by symmetry assume j1 < j2; then p < xs[j1+1] ≤ xs[j2] ≤ p
  rcases Nat.lt_or_ge j1 j2 with hlt | hge
  · have hj1ne : j1 ≠ xs.length - 1 := by omega
    rw [if_neg hj1ne] at h1
    have hchain : xs.getD (j1 + 1) 0 ≤ xs.getD j2 0 := pairwise_le_getD hpw (by omega) hj2
    omega
  · have hlt : j2 < j1 := by omega
    have hj2ne : j2 ≠ xs.length - 1 := by omega
    rw [if_neg hj2ne] at h2
    have hchain : xs.getD (j2 + 1) 0 ≤ xs.getD j1 0 := pairwise_le_getD hpw (by omega) hj1
    omega

/-- Within one discovered segment the sorted stream is constant: every position
of the segment carries the value of the segment's start position. -/
theorem segment_constant (s : List Int) (j : Nat) (hj : j < (segmentOffsets s).length) :
    ∀ p, (segmentOffsets s).getD j 0 ≤ p → p < segEndAt (segmentOffsets s) s.length j →
      s.getD p 0 = s.getD ((segmentOffsets s).getD j 0) 0 := by
  have hpw := segmentOffsets_pairwise s
  have hbd := segmentOffsets_bound s
  have hend_le : segEndAt (segmentOffsets s) s.length j ≤ s.length := by
    unfold segEndAt
    by_cases hlast : j = (segmentOffsets s).length - 1
    · rw [if_pos hlast]
    · rw [if_neg hlast]
      exact le_of_lt (hbd _ (getD_mem (by omega)))
  intro p
  induction p with
  | zero =>
    intro hle _
    have : (segmentOffsets s).getD j 0 = 0 := by omega
    rw [this]
  | succ p ihp =>
    intro hle hlt
    by_cases heq : (segmentOffsets s).getD j 0 = p + 1
    · rw [heq]
    · have hle' : (segmentOffsets s).getD j 0 ≤ p := by omega
      have hltp : p < segEndAt (segmentOffsets s) s.length j := by omega
      -- p + 1 is not a segment start, hence not a mask position
      have hnotmem : p + 1 ∉ segmentOffsets s := by
        intro hmem
        rcases mem_getD_of_mem hmem with ⟨t, htlen, hteq⟩
        have htj : j < t := by
          rcases Nat.lt_or_ge j t with h | h
          · exact h
          · exfalso
            have := pairwise_le_getD hpw h hj
            omega
        by_cases hlast : j = (segmentOffsets s).length - 1
        · omega
        · have : segEndAt (segmentOffsets s) s.length j = (segmentOffsets s).getD (j + 1) 0 := by
            unfold segEndAt
            rw [if_neg hlast]
          rw [this] at hlt
          have := pairwise_le_getD hpw (show j + 1 ≤ t by omega) htlen
          omega
      have hval : s.getD (p + 1) 0 = s.getD p 0 := by
        have hp1 : p + 1 < s.length := by omega
        by_contra hne2
        exact hnotmem ((segmentOffsets_mem_iff s (p + 1)).mpr
          ⟨hp1, Or.inr (by simpa using hne2)⟩)
      rw [hval]
      exact ihp hle' hltp

/-- Claim C2: for every sorted index stream, the discovered segment offsets
(adjacent-inequality mask with position 0 forced to 1, then compaction) induce
ranges that partition `[0, N)` exactly once — every position lies in exactly
one segment range — and every segment's range carries exactly one distinct
value of the sorted stream. -/
theorem claim_C2_segment_partition (s : List Int) (hs : s.Pairwise (· ≤ ·)) :
    (∀ p, p < s.length → ∃! j, j < (segmentOffsets s).length ∧
      (segmentOffsets s).getD j 0 ≤ p ∧ p < segEndAt (segmentOffsets s) s.length j) ∧
    (∀ j, j < (segmentOffsets s).length → ∀ p q,
      (segmentOffsets s).getD j 0 ≤ p → p < segEndAt (segmentOffsets s) s.length j →
      (segmentOffsets s).getD j 0 ≤ q → q < segEndAt (segmentOffsets s) s.length j →
      s.getD p 0 = s.getD q 0) := by
  constructor
  · intro p hp
    have hne : s ≠ [] := by
      intro h
      subst h
      simp at hp
    obtain ⟨j, hj, hle, hlt⟩ := cut_cover_exists (segmentOffsets s) s.length p
      (segmentOffsets_pairwise s) (segmentOffsets_bound s) hp
      (segmentOffsets_ne_nil s hne)
      (by rw [segmentOffsets_getD_zero s hne]; omega)
    refine ⟨j, ⟨hj, hle, ?_⟩, ?_⟩
    · unfold segEndAt
      exact hlt
    · rintro j' ⟨hj', hle', hlt'⟩
      unfold segEndAt at hlt'
      exact cut_cover_unique (segmentOffsets s) s.length p (segmentOffsets_pairwise s)
        j' j hj' hj ⟨hle', hlt'⟩ ⟨hle, hlt⟩
  · intro j hj p q hp1 hp2 hq1 hq2
    rw [segment_constant s j hj p hp1 hp2, segment_constant s j hj q hq1 hq2]

/-- Claim C2 witness: the sorted stream `[1, 1, 3, 3, 3]`. -/
theorem claim_C2_segment_partition_witness :
    (∀ p, p < ([1, 1, 3, 3, 3] : List Int).length →
      ∃! j, j < (segmentOffsets [1, 1, 3, 3, 3]).length ∧
        (segmentOffsets [1, 1, 3, 3, 3]).getD j 0 ≤ p ∧
        p < segEndAt (segmentOffsets [1, 1, 3, 3, 3]) ([1, 1, 3, 3, 3] : List Int).length j) ∧
    (∀ j, j < (segmentOffsets [1, 1, 3, 3, 3]).length → ∀ p q,
      (segmentOffsets [1, 1, 3, 3, 3]).getD j 0 ≤ p →
      p < segEndAt (segmentOffsets [1, 1, 3, 3, 3]) ([1, 1, 3, 3, 3] : List Int).length j →
      (segmentOffsets [1, 1, 3, 3, 3]).getD j 0 ≤ q →
      q < segEndAt (segmentOffsets [1, 1, 3, 3, 3]) ([1, 1, 3, 3, 3] : List Int).length j →
      ([1, 1, 3, 3, 3] : List Int).getD p 0 = ([1, 1, 3, 3, 3] : List Int).getD q 0) :=
  claim_C2_segment_partition [1, 1, 3, 3, 3] (by decide)


/-! ### Partial-segment splitting lemmas (Claim C3) -/

theorem getD_map_range {α : Type} (f : Nat → α) (d : α) (k j : Nat) (hj : j < k) :
    ((List.range k).map f).getD j d = f j := by
  rw [List.getD_eq_getElem _ _ (by simpa using hj)]
  simp

theorem krn_partials_getD (offs : List Nat) (numel j : Nat) (hj : j < offs.length) :
    (krn_partials_per_segment offs numel).getD j 0 =
      CeilDivNat (segEndAt offs numel j - offs.getD j 0) NROWS_PER_THREAD := by
  unfold krn_partials_per_segment
  rw [getD_map_range _ _ _ _ hj]

theorem krn_partials_length (offs : List Nat) (numel : Nat) :
    (krn_partials_per_segment offs numel).length = offs.length := by
  unfold krn_partials_per_segment
  simp

theorem krnWriteLoop_length :
    ∀ (n : Nat) (ret : List Nat) (idx v : Nat),
      (krnWriteLoop ret idx v n).length = ret.length := by
  intro n
  induction n with
  | zero => intro ret idx v; rfl
  | succ n ih =>
    intro ret idx v
    show (krnWriteLoop (ret.set idx v) (idx + 1) (v + NROWS_PER_THREAD) n).length = ret.length
    rw [ih]
    simp

theorem drop_append_big {α : Type} (l1 l2 : List α) (n : Nat) :
    (l1 ++ l2).drop (l1.length + n) = l2.drop n := by
  induction l1 with
  | nil => simp
  | cons x xs ih =>
    have h : (x :: xs).length + n = (xs.length + n) + 1 := by simp; omega
    rw [h, List.cons_append, List.drop_succ_cons]
    exact ih

theorem take_append_one {α : Type} (l1 l2 : List α) (n : Nat) :
    (l1 ++ l2).take (l1.length + n) = l1 ++ l2.take n := by
  induction l1 with
  | nil => simp
  | cons x xs ih =>
    have h : (x :: xs).length + n = (xs.length + n) + 1 := by simp; omega
    rw [h, List.cons_append, List.take_succ_cons, ih]
    rfl

theorem krnWriteLoop_eq :
    ∀ (n : Nat) (ret : List Nat) (idx v : Nat), idx + n ≤ ret.length →
      krnWriteLoop ret idx v n =
        ret.take idx ++ (List.range n).map (fun i => v + i * NROWS_PER_THREAD) ++
          ret.drop (idx + n) := by
  intro n
  induction n with
  | zero =>
    intro ret idx v _
    simp [krnWriteLoop]
  | succ n ih =>
    intro ret idx v hle
    have hidx : idx < ret.length := by omega
    show krnWriteLoop (ret.set idx v) (idx + 1) (v + NROWS_PER_THREAD) n =
      ret.take idx ++ (List.range (n + 1)).map (fun i => v + i * NROWS_PER_THREAD) ++
        ret.drop (idx + (n + 1))
    rw [ih (ret.set idx v) (idx + 1) (v + NROWS_PER_THREAD) (by simp; omega)]
    have hset : ret.set idx v = ret.take idx ++ v :: ret.drop (idx + 1) :=
      List.set_eq_take_cons_drop v hidx
    have htklen : (ret.take idx).length = idx := by
      simp
      omega
    have htake : (ret.set idx v).take (idx + 1) = ret.take idx ++ [v] := by
      rw [hset]
      have h1 : idx + 1 = (ret.take idx).length + 1 := by omega
      rw [h1, take_append_one]
      simp
    have hdrop : (ret.set idx v).drop (idx + 1 + n) = ret.drop (idx + (n + 1)) := by
      rw [hset]
      have h2 : ret.take idx ++ v :: ret.drop (idx + 1) =
          (ret.take idx ++ [v]) ++ ret.drop (idx + 1) := by simp
      have h1 : idx + 1 + n = (ret.take idx ++ [v]).length + n := by
        simp
        omega
      rw [h2, h1, drop_append_big, List.drop_drop]
      congr 1
      omega
    rw [htake, hdrop]
    have hmap : (List.range (n + 1)).map (fun i => v + i * NROWS_PER_THREAD) =
        v :: (List.range n).map (fun i => (v + NROWS_PER_THREAD) + i * NROWS_PER_THREAD) := by
      rw [List.range_succ_eq_map]
      simp only [List.map_cons, List.map_map]
      refine congrArg₂ (· :: ·) (by omega) ?_
      apply List.map_congr_left
      intro i _
      simp only [Function.comp, Nat.succ_eq_add_one]
      ring
    rw [hmap]
    simp

theorem chunkStarts_length (s c : Nat) : (chunkStarts s c).length = c := by
  simp [chunkStarts]

theorem exclusiveScan_length : ∀ (xs : List Nat) (b : Nat),
    (exclusiveScan xs b).length = xs.length := by
  intro xs
  induction xs with
  | nil => intro b; rfl
  | cons x t ih => intro b; simp [exclusiveScan, ih]

theorem exclusiveScan_last_add : ∀ (xs : List Nat) (b : Nat), xs ≠ [] →
    xs.getD (xs.length - 1) 0 + (exclusiveScan xs b).getD (xs.length - 1) 0 = b + xs.sum := by
  intro xs
  induction xs with
  | nil => intro b h; exact absurd rfl h
  | cons x t ih =>
    intro b _
    cases t with
    | nil => simp [exclusiveScan]; omega
    | cons y rest =>
      have hlen : (x :: y :: rest).length - 1 = (y :: rest).length - 1 + 1 := by
        simp
      rw [hlen]
      show (y :: rest).getD ((y :: rest).length - 1) 0 +
          (exclusiveScan (y :: rest) (b + x)).getD ((y :: rest).length - 1) 0 =
        b + (x :: y :: rest).sum
      rw [ih (b + x) (List.cons_ne_nil _ _)]
      simp
      omega

/-- The second phase of partial-segment splitting lays the per-segment chunk
start lists out contiguously: running the write loops of all segments, with
write positions given by the exclusive scan of the per-segment counts, turns
the region starting at `base` into the concatenation of the per-segment
`chunkStarts` lists. -/
theorem writeSegments_flatten :
    ∀ (segs : List (Nat × Nat)) (ret : List Nat) (base : Nat),
      base + (segs.map Prod.snd).sum ≤ ret.length →
      writeSegments ret ((exclusiveScan (segs.map Prod.snd) base).zip segs) =
        ret.take base ++ (segs.map (fun sc => chunkStarts sc.1 sc.2)).flatten ++
          ret.drop (base + (segs.map Prod.snd).sum) := by
  intro segs
  induction segs with
  | nil =>
    intro ret base _
    simp [writeSegments, exclusiveScan]
  | cons sc rest ih =>
    intro ret base hle
    obtain ⟨s, c⟩ := sc
    have hsum : (((s, c) :: rest).map Prod.snd).sum = c + (rest.map Prod.snd).sum := by simp
    have hbc : base + c ≤ ret.length := by
      rw [hsum] at hle
      omega
    have hscan : exclusiveScan (((s, c) :: rest).map Prod.snd) base =
        base :: exclusiveScan (rest.map Prod.snd) (base + c) := by
      simp [exclusiveScan]
    rw [hscan]
    show writeSegments (krnWriteLoop ret base s c)
        ((exclusiveScan (rest.map Prod.snd) (base + c)).zip rest) = _
    have hret' : krnWriteLoop ret base s c =
        ret.take base ++ chunkStarts s c ++ ret.drop (base + c) := by
      rw [krnWriteLoop_eq c ret base s hbc]
      rfl
    have hlen' : (krnWriteLoop ret base s c).length = ret.length := krnWriteLoop_length _ _ _ _
    rw [ih (krnWriteLoop ret base s c) (base + c) (by rw [hlen']; rw [hsum] at hle; omega)]
    have htklen : (ret.take base ++ chunkStarts s c).length = base + c := by
      simp [chunkStarts_length]
      omega
    have htake2 : (krnWriteLoop ret base s c).take (base + c) =
        ret.take base ++ chunkStarts s c := by
      rw [hret']
      have key := take_append_one (ret.take base ++ chunkStarts s c) (ret.drop (base + c)) 0
      simp only [List.take_zero, List.append_nil, Nat.add_zero] at key
      rw [htklen] at key
      exact key
    have hdrop2 : (krnWriteLoop ret base s c).drop (base + c + (rest.map Prod.snd).sum) =
        ret.drop (base + c + (rest.map Prod.snd).sum) := by
      rw [hret']
      have key := drop_append_big (ret.take base ++ chunkStarts s c) (ret.drop (base + c))
        (rest.map Prod.snd).sum
      rw [htklen] at key
      rw [key, List.drop_drop]
    rw [htake2, hdrop2, hsum]
    have hidx : base + (c + (rest.map Prod.snd).sum) = base + c + (rest.map Prod.snd).sum := by
      omega
    rw [List.map_cons, hidx]
    have hjoin : (chunkStarts s c :: rest.map (fun sc => chunkStarts sc.1 sc.2)).flatten =
        chunkStarts s c ++ (rest.map (fun sc => chunkStarts sc.1 sc.2)).flatten := by
      simp [List.flatten]
    rw [hjoin]
    simp [List.append_assoc]

theorem seg_size_pos (offs : List Nat) (numel : Nat) (hpw : offs.Pairwise (· < ·))
    (hbd : ∀ x ∈ offs, x < numel) (j : Nat) (hj : j < offs.length) :
    offs.getD j 0 < segEndAt offs numel j := by
  unfold segEndAt
  by_cases hlast : j = offs.length - 1
  · rw [if_pos hlast]
    exact hbd _ (getD_mem hj)
  · rw [if_neg hlast]
    exact pairwise_lt_getD hpw (by omega) (by omega)

/-- Claim C3: for every segment, the splitting stage produces exactly
`ceil(segment_length / CHUNK_SIZE)` partial segments with `CHUNK_SIZE = 10`
(`NROWS_PER_THREAD`); their start offsets are `segment_offset + k * CHUNK_SIZE`
laid out contiguously per segment in the flattened array (the array equals the
concatenation of the per-segment `chunkStarts` lists); every partial segment
has length at most `CHUNK_SIZE` (the tail may be shorter), and the union of a
segment's partial segments exactly covers the segment's range. -/
theorem claim_C3_partial_segment_splitting (offs : List Nat) (numel : Nat)
    (hpw : offs.Pairwise (· < ·)) (hbd : ∀ x ∈ offs, x < numel) :
    (∀ j, j < offs.length →
      (krn_partials_per_segment offs numel).getD j 0 =
        (segEndAt offs numel j - offs.getD j 0) / NROWS_PER_THREAD +
          (if (segEndAt offs numel j - offs.getD j 0) % NROWS_PER_THREAD = 0 then 0 else 1)) ∧
    krn_partial_segment_offset (List.replicate (krn_partials_per_segment offs numel).sum 0)
        (krn_partials_per_segment offs numel)
        (exclusiveScan (krn_partials_per_segment offs numel) 0) offs =
      ((offs.zip (krn_partials_per_segment offs numel)).map
        (fun sc => chunkStarts sc.1 sc.2)).flatten ∧
    (∀ j, j < offs.length → ∀ i, i < (krn_partials_per_segment offs numel).getD j 0 →
      (if i + 1 < (krn_partials_per_segment offs numel).getD j 0
          then offs.getD j 0 + (i + 1) * NROWS_PER_THREAD
          else segEndAt offs numel j) - (offs.getD j 0 + i * NROWS_PER_THREAD) ≤
        NROWS_PER_THREAD) ∧
    (∀ j, j < offs.length → ∀ p,
      (offs.getD j 0 ≤ p ∧ p < segEndAt offs numel j) ↔
      ∃ i, i < (krn_partials_per_segment offs numel).getD j 0 ∧
        offs.getD j 0 + i * NROWS_PER_THREAD ≤ p ∧
        p < (if i + 1 < (krn_partials_per_segment offs numel).getD j 0
          then offs.getD j 0 + (i + 1) * NROWS_PER_THREAD
          else segEndAt offs numel j)) := by
  have hN : NROWS_PER_THREAD = 10 := rfl
  refine ⟨?_, ?_, ?_, ?_⟩
  · intro j hj
    rw [krn_partials_getD offs numel j hj]
    simp only [CeilDivNat, hN]
    by_cases hm : (segEndAt offs numel j - offs.getD j 0) % 10 = 0
    · rw [if_pos hm]
      omega
    · rw [if_neg hm]
      omega
  · unfold krn_partial_segment_offset
    have hplen : (krn_partials_per_segment offs numel).length = offs.length :=
      krn_partials_length offs numel
    have hmapsnd : (offs.zip (krn_partials_per_segment offs numel)).map Prod.snd =
        krn_partials_per_segment offs numel := by
      apply List.map_snd_zip
      omega
    have hflat := writeSegments_flatten (offs.zip (krn_partials_per_segment offs numel))
      (List.replicate (krn_partials_per_segment offs numel).sum 0) 0
      (by rw [hmapsnd]; simp)
    rw [hmapsnd] at hflat
    rw [hflat]
    have hdroplen : (List.replicate (krn_partials_per_segment offs numel).sum (0 : Nat)).drop
        (0 + (krn_partials_per_segment offs numel).sum) = [] := by
      apply List.drop_eq_nil_of_le
      simp
    rw [hdroplen]
    simp
  · intro j hj i hi
    rw [krn_partials_getD offs numel j hj] at hi ⊢
    have hsz := seg_size_pos offs numel hpw hbd j hj
    simp only [CeilDivNat, hN] at hi ⊢
    by_cases hc : i + 1 < (segEndAt offs numel j - offs.getD j 0 + 10 - 1) / 10
    · rw [if_pos hc]
      omega
    · rw [if_neg hc]
      omega
  · intro j hj p
    rw [krn_partials_getD offs numel j hj]
    have hsz := seg_size_pos offs numel hpw hbd j hj
    simp only [CeilDivNat, hN]
    constructor
    · rintro ⟨hlow, hhigh⟩
      refine ⟨(p - offs.getD j 0) / 10, by omega, by omega, ?_⟩
      by_cases hc : (p - offs.getD j 0) / 10 + 1 <
          (segEndAt offs numel j - offs.getD j 0 + 10 - 1) / 10
      · rw [if_pos hc]
        omega
      · rw [if_neg hc]
        exact hhigh
    · rintro ⟨i, hi, hlow, hhigh⟩
      constructor
      · omega
      · by_cases hc : i + 1 < (segEndAt offs numel j - offs.getD j 0 + 10 - 1) / 10
        · rw [if_pos hc] at hhigh
          omega
        · rw [if_neg hc] at hhigh
          exact hhigh

/-- Claim C3 witness: segment offsets `[0, 3]` over a stream of length 25
(segment sizes 3 and 22, hence 1 and 3 partial segments). -/
theorem claim_C3_partial_segment_splitting_witness :
    (∀ j, j < ([0, 3] : List Nat).length →
      (krn_partials_per_segment [0, 3] 25).getD j 0 =
        (segEndAt [0, 3] 25 j - ([0, 3] : List Nat).getD j 0) / NROWS_PER_THREAD +
          (if (segEndAt [0, 3] 25 j - ([0, 3] : List Nat).getD j 0) % NROWS_PER_THREAD = 0
            then 0 else 1)) ∧
    krn_partial_segment_offset (List.replicate (krn_partials_per_segment [0, 3] 25).sum 0)
        (krn_partials_per_segment [0, 3] 25)
        (exclusiveScan (krn_partials_per_segment [0, 3] 25) 0) [0, 3] =
      ((([0, 3] : List Nat).zip (krn_partials_per_segment [0, 3] 25)).map
        (fun sc => chunkStarts sc.1 sc.2)).flatten ∧
    (∀ j, j < ([0, 3] : List Nat).length →
      ∀ i, i < (krn_partials_per_segment [0, 3] 25).getD j 0 →
      (if i + 1 < (krn_partials_per_segment [0, 3] 25).getD j 0
          then ([0, 3] : List Nat).getD j 0 + (i + 1) * NROWS_PER_THREAD
          else segEndAt [0, 3] 25 j) -
        (([0, 3] : List Nat).getD j 0 + i * NROWS_PER_THREAD) ≤ NROWS_PER_THREAD) ∧
    (∀ j, j < ([0, 3] : List Nat).length → ∀ p,
      (([0, 3] : List Nat).getD j 0 ≤ p ∧ p < segEndAt [0, 3] 25 j) ↔
      ∃ i, i < (krn_partials_per_segment [0, 3] 25).getD j 0 ∧
        ([0, 3] : List Nat).getD j 0 + i * NROWS_PER_THREAD ≤ p ∧
        p < (if i + 1 < (krn_partials_per_segment [0, 3] 25).getD j 0
          then ([0, 3] : List Nat).getD j 0 + (i + 1) * NROWS_PER_THREAD
          else segEndAt [0, 3] 25 j)) :=
  claim_C3_partial_segment_splitting [0, 3] 25 (by decide) (by decide)

/-! ### Scatter-stage lemmas (Claims C4, C10, C1) -/

/-- `sum_and_scatter` unfolds to a fold whose step is determined by
`scatterF`. -/
theorem sum_and_scatter_eq_fold (input : List Int) (gw : List ℚ) (segOffs : List Nat)
    (gwps : List ℚ) (szOffs : List Nat) (np : Nat) (padding : Int) :
    sum_and_scatter input gw segOffs gwps szOffs np padding =
      (List.range segOffs.length).foldl (fun acc id =>
        if (scatterF input segOffs gwps szOffs np id).1 ≠ padding
        then acc.set ((scatterF input segOffs gwps szOffs np id).1).toNat
          (scatterF input segOffs gwps szOffs np id).2
        else acc) gw := rfl

theorem sum_and_scatter_nopad_eq_fold (input : List Int) (gw : List ℚ) (segOffs : List Nat)
    (gwps : List ℚ) (szOffs : List Nat) (np : Nat) :
    sum_and_scatter_nopad input gw segOffs gwps szOffs np =
      (List.range segOffs.length).foldl (fun acc id =>
        acc.set ((scatterF input segOffs gwps szOffs np id).1).toNat
          (scatterF input segOffs gwps szOffs np id).2) gw := rfl

theorem foldl_ext {α β : Type} (f g : α → β → α) :
    ∀ (l : List β) (a : α), (∀ x ∈ l, ∀ acc, f acc x = g acc x) →
      l.foldl f a = l.foldl g a := by
  intro l
  induction l with
  | nil => intro a _; rfl
  | cons x xs ih =>
    intro a h
    simp only [List.foldl_cons]
    rw [h x (List.mem_cons_self _ _) a]
    exact ih _ (fun y hy acc => h y (List.mem_cons_of_mem _ hy) acc)

theorem scatter_fold_length (f : Nat → Int × ℚ) (padding : Int) :
    ∀ (ids : List Nat) (gw : List ℚ),
      (ids.foldl (fun acc id =>
        if (f id).1 ≠ padding then acc.set ((f id).1).toNat (f id).2 else acc) gw).length =
        gw.length := by
  intro ids
  induction ids with
  | nil => intro gw; rfl
  | cons id rest ih =>
    intro gw
    simp only [List.foldl_cons]
    rw [ih]
    by_cases h : (f id).1 ≠ padding
    · rw [if_pos h]
      simp
    · rw [if_neg h]

/-- Rows never targeted by any thread of the scatter fold keep their value. -/
theorem scatter_fold_preserve (f : Nat → Int × ℚ) (padding : Int) :
    ∀ (ids : List Nat) (gw : List ℚ) (r : Nat),
      (∀ id ∈ ids, (f id).1 = padding ∨ ((f id).1).toNat ≠ r) →
      (ids.foldl (fun acc id =>
        if (f id).1 ≠ padding then acc.set ((f id).1).toNat (f id).2 else acc) gw).getD r 0 =
        gw.getD r 0 := by
  intro ids
  induction ids with
  | nil => intro gw r _; rfl
  | cons id rest ih =>
    intro gw r h
    simp only [List.foldl_cons]
    rw [ih _ _ (fun id' h' => h id' (List.mem_cons_of_mem _ h'))]
    rcases h id (List.mem_cons_self _ _) with hpad | hne
    · rw [if_neg (by simpa using hpad)]
    · by_cases hp : (f id).1 = padding
      · rw [if_neg (by simpa using hp)]
      · rw [if_pos hp]
        exact getD_set_ne _ _ _ _ _ hne

/-- If exactly one thread (`id`, occurring once in the id list) writes row `r`
and no later thread touches `r`, the row ends up holding that thread's
weight. -/
theorem scatter_fold_write (f : Nat → Int × ℚ) (padding : Int) :
    ∀ (pre post : List Nat) (id : Nat) (gw : List ℚ) (r : Nat), r < gw.length →
      (f id).1 ≠ padding → ((f id).1).toNat = r →
      (∀ id' ∈ post, (f id').1 = padding ∨ ((f id').1).toNat ≠ r) →
      ((pre ++ id :: post).foldl (fun acc id =>
        if (f id).1 ≠ padding then acc.set ((f id).1).toNat (f id).2 else acc) gw).getD r 0 =
        (f id).2 := by
  intro pre post id gw r hr hpad htgt hpost
  rw [List.foldl_append]
  simp only [List.foldl_cons]
  rw [if_pos hpad]
  rw [scatter_fold_preserve f padding post _ r hpost]
  rw [htgt]
  apply getD_set_self
  rw [scatter_fold_length]
  omega

theorem range_split (k j : Nat) (hj : j < k) :
    List.range k = List.range j ++ j :: List.range' (j + 1) (k - (j + 1)) := by
  rw [List.range_eq_range', List.range_eq_range']
  have key := List.range'_append_1 0 j (k - j)
  simp only [Nat.zero_add] at key
  have h3 : k - j + j = k := by omega
  rw [h3] at key
  rw [← key]
  have h4 : k - j = (k - (j + 1)) + 1 := by omega
  rw [h4, List.range'_succ]

theorem mem_range'_bound {id' s n : Nat} (h : id' ∈ List.range' s n) :
    s ≤ id' ∧ id' < s + n := by
  rw [List.mem_range'_1] at h
  exact h

/-- Claim C4: in `sum_and_scatter` over a zero-initialised output, every
segment whose (unique) index value equals `padding_idx` leaves its output row
exactly zero, and every other segment's row is written exactly once, ending
with exactly that segment's summed weight. -/
theorem claim_C4_padding_row_untouched (input : List Int) (segOffs : List Nat)
    (gwps : List ℚ) (szOffs : List Nat) (np : Nat) (padding : Int) (num_weights : Nat)
    (hvalid : ∀ j, j < segOffs.length →
      0 ≤ (scatterF input segOffs gwps szOffs np j).1 ∧
      ((scatterF input segOffs gwps szOffs np j).1).toNat < num_weights)
    (hdist : ∀ j1 j2, j1 < j2 → j2 < segOffs.length →
      (scatterF input segOffs gwps szOffs np j1).1 ≠
        (scatterF input segOffs gwps szOffs np j2).1) :
    ∀ j, j < segOffs.length →
      ((scatterF input segOffs gwps szOffs np j).1 = padding →
        (sum_and_scatter input (List.replicate num_weights 0) segOffs gwps szOffs np
          padding).getD ((scatterF input segOffs gwps szOffs np j).1).toNat 0 = 0) ∧
      ((scatterF input segOffs gwps szOffs np j).1 ≠ padding →
        (sum_and_scatter input (List.replicate num_weights 0) segOffs gwps szOffs np
          padding).getD ((scatterF input segOffs gwps szOffs np j).1).toNat 0 =
          (scatterF input segOffs gwps szOffs np j).2) := by
  intro j hj
  constructor
  · intro hpadj
    rw [sum_and_scatter_eq_fold]
    rw [scatter_fold_preserve (scatterF input segOffs gwps szOffs np) padding _ _ _ ?_]
    · exact getD_replicate_zero _ _
    · intro id hid
      have hidk : id < segOffs.length := List.mem_range.mp hid
      by_cases hp : (scatterF input segOffs gwps szOffs np id).1 = padding
      · exact Or.inl hp
      · refine Or.inr ?_
        intro htn
        have h1 := (hvalid id hidk).1
        have h2 := (hvalid j hj).1
        have : (scatterF input segOffs gwps szOffs np id).1 =
            (scatterF input segOffs gwps szOffs np j).1 := by omega
        rw [this, hpadj] at hp
        exact hp rfl
  · intro hpadj
    rw [sum_and_scatter_eq_fold, range_split segOffs.length j hj]
    apply scatter_fold_write
    · simpa using (hvalid j hj).2
    · exact hpadj
    · rfl
    · intro id' hid'
      have hbnd := mem_range'_bound hid'
      have hidk : id' < segOffs.length := by omega
      by_cases hp : (scatterF input segOffs gwps szOffs np id').1 = padding
      · exact Or.inl hp
      · refine Or.inr ?_
        intro htn
        have h1 := (hvalid id' hidk).1
        have h2 := (hvalid j hj).1
        have heq : (scatterF input segOffs gwps szOffs np id').1 =
            (scatterF input segOffs gwps szOffs np j).1 := by omega
        exact hdist j id' (by omega) hidk heq.symm

/-- Claim C4 witness: two segments of a sorted stream `[2, 2, 4]`, with
`padding_idx = 2`: row 2 stays zero, row 4 receives its segment weight. -/
theorem claim_C4_padding_row_untouched_witness :
    ((scatterF [2, 4, 4] [0, 1] [5, 7] [0, 1] 2 0).1 = 2 →
      (sum_and_scatter [2, 4, 4] (List.replicate 6 0) [0, 1] [5, 7] [0, 1] 2
        2).getD ((scatterF [2, 4, 4] [0, 1] [5, 7] [0, 1] 2 0).1).toNat 0 = 0) ∧
    ((scatterF [2, 4, 4] [0, 1] [5, 7] [0, 1] 2 0).1 ≠ 2 →
      (sum_and_scatter [2, 4, 4] (List.replicate 6 0) [0, 1] [5, 7] [0, 1] 2
        2).getD ((scatterF [2, 4, 4] [0, 1] [5, 7] [0, 1] 2 0).1).toNat 0 =
        (scatterF [2, 4, 4] [0, 1] [5, 7] [0, 1] 2 0).2) :=
  claim_C4_padding_row_untouched [2, 4, 4] [0, 1] [5, 7] [0, 1] 2 2 6
    (by
      intro j hj
      simp only [List.length_cons, List.length_nil] at hj
      have hcase : j = 0 ∨ j = 1 := by omega
      rcases hcase with rfl | rfl <;> decide)
    (by
      intro j1 j2 h12 h2
      simp only [List.length_cons, List.length_nil] at h2
      have hj1 : j1 = 0 := by omega
      have hj2 : j2 = 1 := by omega
      subst hj1
      subst hj2
      decide)
    0 (by decide)

/-- With `padding_idx = -1` and nonnegative index values, the padding guard of
`sum_and_scatter` is satisfied by every segment, so the function coincides with
the unguarded scatter. -/
theorem sum_and_scatter_neg_one (input : List Int) (gw : List ℚ) (segOffs : List Nat)
    (gwps : List ℚ) (szOffs : List Nat) (np : Nat) (hvalid : ∀ x ∈ input, 0 ≤ x) :
    sum_and_scatter input gw segOffs gwps szOffs np (-1) =
      sum_and_scatter_nopad input gw segOffs gwps szOffs np := by
  rw [sum_and_scatter_eq_fold, sum_and_scatter_nopad_eq_fold]
  apply foldl_ext
  intro id _ acc
  have htarget : 0 ≤ (scatterF input segOffs gwps szOffs np id).1 := by
    show 0 ≤ input.getD (segOffs.getD id 0) 0
    by_cases h : segOffs.getD id 0 < input.length
    · exact hvalid _ (getD_mem h)
    · rw [List.getD_eq_default _ _ (Nat.le_of_not_lt h)]
  rw [if_pos (by omega)]

/-- Claim C10: the public sum/mean dense backward invokes the segmented kernel
with `padding_idx = -1`; since well-formed index values are nonnegative, the
padding-exclusion comparison is never satisfied and the whole backward equals
the kernel with the padding guard removed — every segment's output row is
written. -/
theorem claim_C10_padding_unreachable (grad : List ℚ) (indices : List Int)
    (orig_indices : List Nat) (sorted_indices : List Int) (num_weights : Nat)
    (hvalid : ∀ x ∈ sorted_indices, 0 ≤ x) (hne : indices.length ≠ 0) :
    embedding_bag_backward_dpcpp_sum_avg grad indices orig_indices sorted_indices
        num_weights =
      embedding_bag_backward_kernel_nopad grad orig_indices sorted_indices num_weights
        none := by
  unfold embedding_bag_backward_dpcpp_sum_avg
  rw [if_neg hne]
  unfold embedding_bag_backward_dpcpp_kernel embedding_bag_backward_kernel_nopad
  exact sum_and_scatter_neg_one _ _ _ _ _ _ hvalid

/-- Claim C10 witness: the dense backward on indices `[3, 1, 3]` (sorted
`[1, 3, 3]`, permutation `[1, 0, 2]`) coincides with the unguarded kernel. -/
theorem claim_C10_padding_unreachable_witness :
    embedding_bag_backward_dpcpp_sum_avg [5, 6, 7] [3, 1, 3] [1, 0, 2] [1, 3, 3] 5 =
      embedding_bag_backward_kernel_nopad [5, 6, 7] [1, 0, 2] [1, 3, 3] 5 none :=
  claim_C10_padding_unreachable [5, 6, 7] [3, 1, 3] [1, 0, 2] [1, 3, 3] 5
    (by decide) (by decide)

/-! ### Sum decomposition toolkit (Claim C1) -/

theorem getD_zip {α β : Type} :
    ∀ (l1 : List α) (l2 : List β) (d1 : α) (d2 : β) (i : Nat),
      i < l1.length → i < l2.length →
      (l1.zip l2).getD i (d1, d2) = (l1.getD i d1, l2.getD i d2) := by
  intro l1
  induction l1 with
  | nil => intro l2 d1 d2 i hi _; simp at hi
  | cons x xs ih =>
    intro l2 d1 d2 i hi1 hi2
    cases l2 with
    | nil => simp at hi2
    | cons y ys =>
      cases i with
      | zero => simp
      | succ i =>
        simp only [List.zip_cons_cons, List.getD_cons_succ]
        exact ih ys d1 d2 i (by simpa using hi1) (by simpa using hi2)

theorem foldl_add_eq (g : Nat → ℚ) :
    ∀ (l : List Nat) (c : ℚ), l.foldl (fun w idx => w + g idx) c = c + (l.map g).sum := by
  intro l
  induction l with
  | nil => intro c; simp
  | cons x xs ih =>
    intro c
    simp only [List.foldl_cons, List.map_cons, List.sum_cons]
    rw [ih]
    ring

theorem partialRangeSum_eq_sumRange (gwps : List ℚ) (b e : Nat) :
    partialRangeSum gwps b e = sumRange (fun t => gwps.getD t 0) b e := by
  unfold partialRangeSum sumRange
  rw [foldl_add_eq]
  simp

theorem compute_grad_weight_eq_map (orig : List Nat) (grad : List ℚ) (numel : Nat)
    (B : List Nat) (np : Nat) :
    compute_grad_weight orig grad none numel B np =
      (List.range np).map (fun id =>
        sumRange (fun idx => grad.getD (orig.getD idx 0) 0) (B.getD id 0)
          (if id = np - 1 then numel else B.getD (id + 1) 0)) := by
  unfold compute_grad_weight
  apply List.map_congr_left
  intro id _
  rw [foldl_add_eq]
  rw [sumRange]
  simp

theorem map_range_cutSums (F : Nat → ℚ) :
    ∀ (B : List Nat) (N : Nat),
      (List.range B.length).map (fun id =>
        sumRange F (B.getD id 0) (if id = B.length - 1 then N else B.getD (id + 1) 0)) =
        cutSums F B N := by
  intro B
  induction B with
  | nil => intro N; simp [cutSums]
  | cons b B' ih =>
    intro N
    cases B' with
    | nil => rfl
    | cons b' rest =>
      rw [show (b :: b' :: rest).length = (b' :: rest).length + 1 by simp,
        List.range_succ_eq_map]
      simp only [List.map_cons, List.map_map]
      have hhead : sumRange F ((b :: b' :: rest).getD 0 0)
          (if 0 = (b' :: rest).length + 1 - 1 then N else (b :: b' :: rest).getD (0 + 1) 0) =
          sumRange F b b' := by
        have hne : (0 : Nat) ≠ (b' :: rest).length + 1 - 1 := by simp
        rw [if_neg hne]
        rfl
      have htail : (List.range (b' :: rest).length).map
          ((fun id => sumRange F ((b :: b' :: rest).getD id 0)
            (if id = (b' :: rest).length + 1 - 1 then N
              else (b :: b' :: rest).getD (id + 1) 0)) ∘ Nat.succ) =
          (List.range (b' :: rest).length).map (fun id =>
            sumRange F ((b' :: rest).getD id 0)
            (if id = (b' :: rest).length - 1 then N else (b' :: rest).getD (id + 1) 0)) := by
        apply List.map_congr_left
        intro id _
        simp only [Function.comp, Nat.succ_eq_add_one, List.getD_cons_succ]
        have hiff : (id + 1 = (b' :: rest).length + 1 - 1) ↔ (id = (b' :: rest).length - 1) := by
          simp only [List.length_cons]
          omega
        by_cases hc : id = (b' :: rest).length - 1
        · rw [if_pos (hiff.mpr hc), if_pos hc]
        · rw [if_neg (fun h => hc (hiff.mp h)), if_neg hc]
      rw [hhead, htail, ih N]
      rfl

theorem sumRange_append (F : Nat → ℚ) (a b c : Nat) (hab : a ≤ b) (hbc : b ≤ c) :
    sumRange F a b + sumRange F b c = sumRange F a c := by
  unfold sumRange
  rw [← List.sum_append, ← List.map_append]
  have key := List.range'_append_1 a (b - a) (c - b)
  have h1 : a + (b - a) = b := by omega
  have h2 : c - b + (b - a) = c - a := by omega
  rw [h1, h2] at key
  rw [key]

theorem cutSums_length (F : Nat → ℚ) :
    ∀ (B : List Nat) (N : Nat), (cutSums F B N).length = B.length := by
  intro B
  induction B with
  | nil => intro N; rfl
  | cons b B' ih =>
    intro N
    cases B' with
    | nil => rfl
    | cons b' rest =>
      show (sumRange F b b' :: cutSums F (b' :: rest) N).length = _
      simp only [List.length_cons]
      rw [ih N]
      simp

theorem cutSums_sum (F : Nat → ℚ) :
    ∀ (B : List Nat) (N : Nat), B ≠ [] → B.Chain' (· ≤ ·) → (∀ x ∈ B, x ≤ N) →
      (cutSums F B N).sum = sumRange F (B.headD 0) N := by
  intro B
  induction B with
  | nil => intro N h; exact absurd rfl h
  | cons b B' ih =>
    intro N _ hchain hbd
    cases B' with
    | nil => simp [cutSums]
    | cons b' rest =>
      show (sumRange F b b' :: cutSums F (b' :: rest) N).sum = sumRange F b N
      rw [List.sum_cons, ih N (List.cons_ne_nil _ _) (List.Chain'.tail hchain)
        (fun x hx => hbd x (List.mem_cons_of_mem _ hx))]
      have hbb' : b ≤ b' := by
        have := List.chain'_cons.mp hchain
        exact this.1
      exact sumRange_append F b b' N hbb' (hbd b' (by simp))

theorem headD_append_ne {α : Type} (l l2 : List α) (d : α) (h : l ≠ []) :
    (l ++ l2).headD d = l.headD d := by
  cases l with
  | nil => exact absurd rfl h
  | cons x xs => rfl

theorem cutSums_append (F : Nat → ℚ) :
    ∀ (L1 L2 : List Nat) (N : Nat), L1 ≠ [] →
      cutSums F (L1 ++ L2) N = cutSums F L1 (L2.headD N) ++ cutSums F L2 N := by
  intro L1
  induction L1 with
  | nil => intro L2 N h; exact absurd rfl h
  | cons b L1' ih =>
    intro L2 N _
    cases L1' with
    | nil =>
      cases L2 with
      | nil => simp [cutSums]
      | cons h t => simp [cutSums]
    | cons b2 rest =>
      show cutSums F (b :: b2 :: (rest ++ L2)) N = _
      rw [show cutSums F (b :: b2 :: (rest ++ L2)) N =
        sumRange F b b2 :: cutSums F (b2 :: (rest ++ L2)) N from rfl]
      rw [show (b2 :: (rest ++ L2) : List Nat) = (b2 :: rest) ++ L2 from rfl]
      rw [ih L2 N (List.cons_ne_nil _ _)]
      rfl

theorem map_getD_range_prefix :
    ∀ (w rest : List ℚ),
      (List.range w.length).map (fun t => (w ++ rest).getD t 0) = w := by
  intro w
  induction w with
  | nil => intro rest; simp
  | cons x xs ih =>
    intro rest
    rw [show (x :: xs).length = xs.length + 1 by simp, List.range_succ_eq_map]
    simp only [List.map_cons, List.map_map]
    refine congrArg₂ (· :: ·) (by simp) ?_
    have : ((fun t => ((x :: xs) ++ rest).getD t 0) ∘ Nat.succ) =
        (fun t => (xs ++ rest).getD t 0) := by
      funext t
      simp [Function.comp]
    rw [this, ih rest]

theorem sumRange_prefix (w rest : List ℚ) :
    sumRange (fun t => (w ++ rest).getD t 0) 0 w.length = w.sum := by
  unfold sumRange
  rw [Nat.sub_zero, ← List.range_eq_range', map_getD_range_prefix]

theorem sumRange_shift_append (w rest : List ℚ) (a b : Nat) :
    sumRange (fun t => (w ++ rest).getD t 0) (w.length + a) (w.length + b) =
      sumRange (fun t => rest.getD t 0) a b := by
  unfold sumRange
  have hsub : w.length + b - (w.length + a) = b - a := by omega
  rw [hsub]
  have hmap := List.map_add_range' w.length a (b - a) 1
  rw [← hmap, List.map_map]
  apply congrArg
  apply List.map_congr_left
  intro t _
  simp only [Function.comp]
  rw [List.getD_append_right _ _ _ _ (by omega)]
  congr 1
  omega

theorem exclusiveScan_getD_add :
    ∀ (xs : List Nat) (b j : Nat), j < xs.length →
      (exclusiveScan xs b).getD j 0 = b + (exclusiveScan xs 0).getD j 0 := by
  intro xs
  induction xs with
  | nil => intro b j hj; simp at hj
  | cons x t ih =>
    intro b j hj
    cases j with
    | zero => simp [exclusiveScan]
    | succ j =>
      show (exclusiveScan t (b + x)).getD j 0 = b + (exclusiveScan t (0 + x)).getD j 0
      have hjt : j < t.length := by simpa using hj
      rw [ih (b + x) j hjt, ih (0 + x) j hjt]
      omega

theorem exclusiveScan_getD_succ :
    ∀ (xs : List Nat) (b j : Nat), j + 1 < xs.length →
      (exclusiveScan xs b).getD (j + 1) 0 =
        (exclusiveScan xs b).getD j 0 + xs.getD j 0 := by
  intro xs
  induction xs with
  | nil => intro b j hj; simp at hj
  | cons x t ih =>
    intro b j hj
    cases j with
    | zero =>
      show (exclusiveScan t (b + x)).getD 0 0 = b + x
      cases t with
      | nil => simp at hj
      | cons y ys => simp [exclusiveScan]
    | succ j =>
      show (exclusiveScan t (b + x)).getD (j + 1) 0 =
        (exclusiveScan t (b + x)).getD j 0 + t.getD j 0
      exact ih (b + x) j (by simpa using hj)

/-- Summing the flattened per-partial-segment buffer over the block of segment
`j` (delimited by the exclusive scan of the block lengths) gives that block's
sum. -/
theorem flatten_block_sum :
    ∀ (ls : List (List ℚ)) (j : Nat), j < ls.length →
      sumRange (fun t => ls.flatten.getD t 0)
          ((exclusiveScan (ls.map List.length) 0).getD j 0)
          ((exclusiveScan (ls.map List.length) 0).getD j 0 + (ls.getD j []).length) =
        (ls.getD j []).sum := by
  intro ls
  induction ls with
  | nil => intro j hj; simp at hj
  | cons l ls' ih =>
    intro j hj
    cases j with
    | zero =>
      have hscan : (exclusiveScan ((l :: ls').map List.length) 0).getD 0 0 = 0 := by
        simp [exclusiveScan]
      rw [hscan]
      simp only [List.getD_cons_zero, List.flatten_cons, Nat.zero_add]
      exact sumRange_prefix l ls'.flatten
    | succ j =>
      have hjl : j < ls'.length := by simpa using hj
      have hscan : (exclusiveScan ((l :: ls').map List.length) 0).getD (j + 1) 0 =
          l.length + (exclusiveScan (ls'.map List.length) 0).getD j 0 := by
        show (exclusiveScan (ls'.map List.length) (0 + l.length)).getD j 0 = _
        rw [exclusiveScan_getD_add (ls'.map List.length) (0 + l.length) j (by simpa using hjl)]
        omega
      rw [hscan]
      simp only [List.getD_cons_succ, List.flatten_cons]
      have harith : l.length + (exclusiveScan (ls'.map List.length) 0).getD j 0 +
          (ls'.getD j []).length =
          l.length + ((exclusiveScan (ls'.map List.length) 0).getD j 0 +
            (ls'.getD j []).length) := by omega
      rw [harith, sumRange_shift_append]
      exact ih j hjl

/-- Cutting the flattened list of nonempty chunk lists produces, per chunk
list, the cut sums of that list ending at the head of the next chunk list (or
at `N` for the last one). -/
theorem cutSums_flatten_chunks (F : Nat → ℚ) :
    ∀ (ls : List (List Nat)) (N : Nat), (∀ l ∈ ls, l ≠ []) →
      cutSums F ls.flatten N =
        ((List.range ls.length).map (fun j =>
          cutSums F (ls.getD j []) (if j = ls.length - 1 then N
            else (ls.getD (j + 1) []).headD N))).flatten := by
  intro ls
  induction ls with
  | nil => intro N _; simp [cutSums]
  | cons l ls' ih =>
    intro N hne
    have hl : l ≠ [] := hne l (by simp)
    rw [List.flatten_cons, cutSums_append F l ls'.flatten N hl]
    rw [show (l :: ls').length = ls'.length + 1 by simp, List.range_succ_eq_map]
    simp only [List.map_cons, List.map_map, List.flatten_cons]
    refine congrArg₂ (· ++ ·) ?_ ?_
    · cases ls' with
      | nil =>
        simp
      | cons l' rest =>
        have h0 : (0 : Nat) ≠ (l' :: rest : List (List Nat)).length + 1 - 1 := by simp
        rw [if_neg h0]
        simp only [List.getD_cons_zero, List.getD_cons_succ]
        congr 1
        rw [List.flatten_cons]
        rw [headD_append_ne _ _ _ (hne l' (by simp))]
    · rw [ih N (fun l2 h2 => hne l2 (List.mem_cons_of_mem _ h2))]
      apply congrArg
      apply List.map_congr_left
      intro j hj
      have hjlen : j < ls'.length := List.mem_range.mp hj
      simp only [Function.comp, Nat.succ_eq_add_one, List.getD_cons_succ]
      by_cases hc : j = ls'.length - 1
      · rw [if_pos hc, if_pos (show j + 1 = ls'.length + 1 - 1 by omega)]
      · rw [if_neg hc, if_neg (show ¬(j + 1 = ls'.length + 1 - 1) by omega)]

/-! ### Chunk-list facts and kernel-level assembly (Claim C1) -/

theorem chunkStarts_ne_nil (s c : Nat) (hc : 0 < c) : chunkStarts s c ≠ [] := by
  intro h
  have := chunkStarts_length s c
  rw [h] at this
  simp at this
  omega

theorem chunkStarts_headD (s c : Nat) (hc : 0 < c) (d : Nat) :
    (chunkStarts s c).headD d = s := by
  cases c with
  | zero => omega
  | succ c' =>
    unfold chunkStarts
    rw [List.range_succ_eq_map]
    simp

theorem chunkStarts_mem (s c x : Nat) (hx : x ∈ chunkStarts s c) :
    ∃ i, i < c ∧ x = s + i * NROWS_PER_THREAD := by
  unfold chunkStarts at hx
  rcases List.mem_map.mp hx with ⟨i, hi, rfl⟩
  exact ⟨i, List.mem_range.mp hi, rfl⟩

theorem chunkStarts_chain (s c : Nat) : (chunkStarts s c).Chain' (· ≤ ·) := by
  apply List.Pairwise.chain'
  unfold chunkStarts
  have hr : (List.range c).Pairwise (· < ·) := List.pairwise_lt_range c
  apply List.Pairwise.map
  · intro a b hab
    have : s + a * NROWS_PER_THREAD ≤ s + b * NROWS_PER_THREAD := by
      have : a * NROWS_PER_THREAD ≤ b * NROWS_PER_THREAD :=
        Nat.mul_le_mul_right _ (le_of_lt hab)
      omega
    exact this
  · exact hr

theorem map_getD_range_self {α : Type} :
    ∀ (l : List α) (d : α), (List.range l.length).map (fun j => l.getD j d) = l := by
  intro l
  induction l with
  | nil => intro d; simp
  | cons x xs ih =>
    intro d
    rw [show (x :: xs).length = xs.length + 1 by simp, List.range_succ_eq_map]
    simp only [List.map_cons, List.map_map]
    refine congrArg₂ (· :: ·) (by simp) ?_
    have : ((fun j => (x :: xs).getD j d) ∘ Nat.succ) = (fun j => xs.getD j d) := by
      funext t
      simp [Function.comp]
    rw [this, ih d]

theorem map_chunk_getD (offs partials : List Nat) (j : Nat) (hj : j < offs.length)
    (hlen : partials.length = offs.length) :
    ((offs.zip partials).map (fun sc => chunkStarts sc.1 sc.2)).getD j [] =
      chunkStarts (offs.getD j 0) (partials.getD j 0) := by
  have hzlen : (offs.zip partials).length = offs.length := by
    rw [List.length_zip]
    omega
  rw [List.getD_eq_getElem _ _ (by rw [List.length_map]; omega)]
  rw [List.getElem_map]
  have hz := getD_zip offs partials 0 0 j hj (by omega)
  rw [List.getD_eq_getElem _ _ (by omega)] at hz
  rw [hz]

/-- The flattened partial-segment offsets equal the concatenation of the
per-segment chunk-start lists (stand-alone form of the layout property, used
to push the gradient sums through the pipeline). -/
theorem krn_pso_flatten (offs : List Nat) (numel : Nat) :
    krn_partial_segment_offset
        (List.replicate (krn_partials_per_segment offs numel).sum 0)
        (krn_partials_per_segment offs numel)
        (exclusiveScan (krn_partials_per_segment offs numel) 0) offs =
      ((offs.zip (krn_partials_per_segment offs numel)).map
        (fun sc => chunkStarts sc.1 sc.2)).flatten := by
  unfold krn_partial_segment_offset
  have hplen : (krn_partials_per_segment offs numel).length = offs.length :=
    krn_partials_length offs numel
  have hmapsnd : ((offs.zip (krn_partials_per_segment offs numel)).map Prod.snd) =
      krn_partials_per_segment offs numel := by
    apply List.map_snd_zip
    omega
  have hflat := writeSegments_flatten (offs.zip (krn_partials_per_segment offs numel))
    (List.replicate (krn_partials_per_segment offs numel).sum 0) 0
    (by rw [hmapsnd]; simp)
  rw [hmapsnd] at hflat
  rw [hflat]
  have hdroplen : (List.replicate (krn_partials_per_segment offs numel).sum (0 : Nat)).drop
      (0 + (krn_partials_per_segment offs numel).sum) = [] := by
    apply List.drop_eq_nil_of_le
    simp
  rw [hdroplen]
  simp

/-- `num_of_partial_segments` as computed by the kernel
(`partials[k-1] + scan[k-1]`) is the total number of partial segments. -/
theorem np_eq_sum (offs : List Nat) (numel : Nat) (hne : offs ≠ []) :
    (krn_partials_per_segment offs numel).getD (offs.length - 1) 0 +
      (exclusiveScan (krn_partials_per_segment offs numel) 0).getD (offs.length - 1) 0 =
    (krn_partials_per_segment offs numel).sum := by
  have hplen : (krn_partials_per_segment offs numel).length = offs.length :=
    krn_partials_length offs numel
  have hpne : krn_partials_per_segment offs numel ≠ [] := by
    intro h
    rw [h] at hplen
    simp at hplen
    exact hne (List.length_eq_zero.mp hplen.symm)
  have := exclusiveScan_last_add (krn_partials_per_segment offs numel) 0 hpne
  rw [hplen] at this
  omega

/-- The weight accumulated by `sum_and_scatter` for segment `j` (sum of its
partial-segment sums, the range being delimited by the exclusive scan of the
partial counts and ending at the total count for the last segment) equals the
sum of `F` over the full segment range. -/
theorem pipeline_weights (F : Nat → ℚ) (offs P scan : List Nat) (ls : List (List Nat))
    (numel : Nat) (hpw : offs.Pairwise (· < ·)) (hbd : ∀ x ∈ offs, x < numel)
    (hne : offs ≠ [])
    (hP : P = krn_partials_per_segment offs numel)
    (hscan : scan = exclusiveScan P 0)
    (hls : ls = (offs.zip P).map (fun sc => chunkStarts sc.1 sc.2))
    (j : Nat) (hj : j < offs.length) :
    partialRangeSum (cutSums F ls.flatten numel) (scan.getD j 0)
        (if j = offs.length - 1 then P.sum else scan.getD (j + 1) 0) =
      sumRange F (offs.getD j 0) (segEndAt offs numel j) := by
  have hplen : P.length = offs.length := by
    rw [hP]
    exact krn_partials_length offs numel
  have hc_ceil : ∀ i, i < offs.length →
      P.getD i 0 = CeilDivNat (segEndAt offs numel i - offs.getD i 0) NROWS_PER_THREAD := by
    intro i hi
    rw [hP]
    exact krn_partials_getD offs numel i hi
  have hc_pos : ∀ i, i < offs.length → 0 < P.getD i 0 := by
    intro i hi
    rw [hc_ceil i hi]
    have := seg_size_pos offs numel hpw hbd i hi
    simp only [CeilDivNat, NROWS_PER_THREAD]
    omega
  have hlslen : ls.length = offs.length := by
    rw [hls, List.length_map, List.length_zip]
    omega
  have hls_getD : ∀ i, i < offs.length →
      ls.getD i [] = chunkStarts (offs.getD i 0) (P.getD i 0) := by
    intro i hi
    rw [hls]
    exact map_chunk_getD offs P i hi hplen
  have hls_ne : ∀ l ∈ ls, l ≠ [] := by
    intro l hl
    rcases List.mem_iff_getElem.mp hl with ⟨i, hi, hval⟩
    have hio : i < offs.length := by omega
    have hlval : l = chunkStarts (offs.getD i 0) (P.getD i 0) := by
      rw [← hls_getD i hio, List.getD_eq_getElem _ _ hi, hval]
    rw [hlval]
    exact chunkStarts_ne_nil _ _ (hc_pos i hio)
  have hmaplen : ls.map List.length = P := by
    rw [hls, List.map_map]
    have h1 : (List.length ∘ fun sc : Nat × Nat => chunkStarts sc.1 sc.2) = Prod.snd := by
      funext sc
      simp [Function.comp, chunkStarts_length]
    rw [h1]
    apply List.map_snd_zip
    omega
  -- the cut sums over the flattened chunk starts, grouped per segment
  have hcut := cutSums_flatten_chunks F ls numel hls_ne
  have hends : ∀ i, i < offs.length →
      ((List.range ls.length).map (fun j2 => cutSums F (ls.getD j2 [])
        (if j2 = ls.length - 1 then numel else (ls.getD (j2 + 1) []).headD numel))).getD i [] =
      cutSums F (chunkStarts (offs.getD i 0) (P.getD i 0)) (segEndAt offs numel i) := by
    intro i hi
    rw [getD_map_range _ _ _ _ (by omega)]
    rw [hls_getD i hi]
    congr 1
    unfold segEndAt
    by_cases hlast : i = offs.length - 1
    · rw [if_pos (by omega : i = ls.length - 1), if_pos hlast]
    · rw [if_neg (by omega : ¬i = ls.length - 1), if_neg hlast]
      rw [hls_getD (i + 1) (by omega)]
      exact chunkStarts_headD _ _ (hc_pos (i + 1) (by omega)) _
  have hBlen : ((List.range ls.length).map (fun j2 => cutSums F (ls.getD j2 [])
      (if j2 = ls.length - 1 then numel else (ls.getD (j2 + 1) []).headD numel))).map
        List.length = P := by
    rw [List.map_map]
    have hpt : ∀ i ∈ List.range ls.length,
        (List.length ∘ fun j2 => cutSums F (ls.getD j2 [])
          (if j2 = ls.length - 1 then numel else (ls.getD (j2 + 1) []).headD numel)) i =
        P.getD i 0 := by
      intro i hi
      have hio : i < offs.length := by
        have := List.mem_range.mp hi
        omega
      simp only [Function.comp]
      rw [cutSums_length, hls_getD i hio, chunkStarts_length]
    rw [List.map_congr_left hpt]
    have : (List.range ls.length).map (fun i => P.getD i 0) =
        (List.range P.length).map (fun i => P.getD i 0) := by
      rw [hlslen, hplen]
    rw [this, map_getD_range_self]
  -- the scatter range of segment j is [scan j, scan j + P j)
  have hEnd : (if j = offs.length - 1 then P.sum else scan.getD (j + 1) 0) =
      scan.getD j 0 + P.getD j 0 := by
    by_cases hlast : j = offs.length - 1
    · rw [if_pos hlast]
      have hpne : P ≠ [] := by
        intro h
        rw [h] at hplen
        simp at hplen
        exact hne (List.length_eq_zero.mp hplen.symm)
      have hadd := exclusiveScan_last_add P 0 hpne
      rw [hscan, hlast, ← hplen]
      omega
    · rw [if_neg hlast, hscan]
      rw [exclusiveScan_getD_succ P 0 j (by omega)]
  rw [hcut, partialRangeSum_eq_sumRange, hEnd]
  have hblock := flatten_block_sum ((List.range ls.length).map (fun j2 =>
    cutSums F (ls.getD j2 [])
      (if j2 = ls.length - 1 then numel else (ls.getD (j2 + 1) []).headD numel))) j
    (by rw [List.length_map, List.length_range]; omega)
  rw [hBlen, ← hscan, hends j hj] at hblock
  have hclen : (cutSums F (chunkStarts (offs.getD j 0) (P.getD j 0))
      (segEndAt offs numel j)).length = P.getD j 0 := by
    rw [cutSums_length, chunkStarts_length]
  rw [hclen] at hblock
  rw [hblock]
  -- the block sum collapses to the sum of F over the segment range
  rw [cutSums_sum F _ _ (chunkStarts_ne_nil _ _ (hc_pos j hj)) (chunkStarts_chain _ _) ?_]
  · rw [chunkStarts_headD _ _ (hc_pos j hj)]
  · intro x hx
    rcases chunkStarts_mem _ _ _ hx with ⟨i, hi, rfl⟩
    have hcj := hc_ceil j hj
    have hsz := seg_size_pos offs numel hpw hbd j hj
    rw [hcj] at hi
    simp only [CeilDivNat, NROWS_PER_THREAD] at hi ⊢
    omega

/-! ### Segment values of a sorted stream (Claim C1) -/

theorem pairwise_le_getD_int {l : List Int} (h : l.Pairwise (· ≤ ·)) {i j : Nat}
    (hij : i ≤ j) (hj : j < l.length) : l.getD i 0 ≤ l.getD j 0 := by
  rcases lt_or_eq_of_le hij with hlt | rfl
  · have hi : i < l.length := lt_trans hlt hj
    rw [List.getD_eq_getElem _ _ hi, List.getD_eq_getElem _ _ hj]
    exact List.pairwise_iff_getElem.mp h i j hi hj hlt
  · exact le_refl _

/-- Under sortedness, consecutive segments carry strictly increasing values. -/
theorem seg_value_succ_lt (sorted : List Int) (hsorted : sorted.Pairwise (· ≤ ·))
    (j : Nat) (hj : j + 1 < (segmentOffsets sorted).length) :
    sorted.getD ((segmentOffsets sorted).getD j 0) 0 <
      sorted.getD ((segmentOffsets sorted).getD (j + 1) 0) 0 := by
  have hpw := segmentOffsets_pairwise sorted
  have hbd := segmentOffsets_bound sorted
  have hlt : (segmentOffsets sorted).getD j 0 < (segmentOffsets sorted).getD (j + 1) 0 :=
    pairwise_lt_getD hpw (by omega) hj
  have hmem : (segmentOffsets sorted).getD (j + 1) 0 ∈ segmentOffsets sorted :=
    getD_mem hj
  have hmask := (segmentOffsets_mem_iff sorted _).mp hmem
  have hnz : (segmentOffsets sorted).getD (j + 1) 0 ≠ 0 := by omega
  have hneq : sorted.getD ((segmentOffsets sorted).getD (j + 1) 0) 0 ≠
      sorted.getD ((segmentOffsets sorted).getD (j + 1) 0 - 1) 0 := by
    rcases hmask.2 with h0 | hne
    · exact absurd h0 hnz
    · exact hne
  have hprev : sorted.getD ((segmentOffsets sorted).getD (j + 1) 0 - 1) 0 =
      sorted.getD ((segmentOffsets sorted).getD j 0) 0 := by
    apply segment_constant sorted j (by omega)
    · omega
    · unfold segEndAt
      rw [if_neg (by omega : ¬j = (segmentOffsets sorted).length - 1)]
      omega
  have hle : sorted.getD ((segmentOffsets sorted).getD (j + 1) 0 - 1) 0 ≤
      sorted.getD ((segmentOffsets sorted).getD (j + 1) 0) 0 := by
    apply pairwise_le_getD_int hsorted (by omega)
    exact hbd _ hmem
  rw [hprev] at hle hneq
  rcases lt_or_eq_of_le hle with h | h
  · exact h
  · exact absurd h.symm hneq

/-- Under sortedness, segment values are strictly increasing in the segment
index. -/
theorem seg_value_strict_mono (sorted : List Int) (hsorted : sorted.Pairwise (· ≤ ·)) :
    ∀ (d j : Nat), j + d + 1 < (segmentOffsets sorted).length →
      sorted.getD ((segmentOffsets sorted).getD j 0) 0 <
        sorted.getD ((segmentOffsets sorted).getD (j + d + 1) 0) 0 := by
  intro d
  induction d with
  | zero =>
    intro j hj
    exact seg_value_succ_lt sorted hsorted j (by omega)
  | succ d ih =>
    intro j hj
    have h1 := ih j (by omega)
    have h2 := seg_value_succ_lt sorted hsorted (j + d + 1) (by omega)
    calc sorted.getD ((segmentOffsets sorted).getD j 0) 0
        < sorted.getD ((segmentOffsets sorted).getD (j + d + 1) 0) 0 := h1
      _ < sorted.getD ((segmentOffsets sorted).getD (j + d + 1 + 1) 0) 0 := h2
      _ = sorted.getD ((segmentOffsets sorted).getD (j + (d + 1) + 1) 0) 0 := rfl

theorem seg_value_ne (sorted : List Int) (hsorted : sorted.Pairwise (· ≤ ·))
    (j1 j2 : Nat) (h12 : j1 < j2) (hj2 : j2 < (segmentOffsets sorted).length) :
    sorted.getD ((segmentOffsets sorted).getD j1 0) 0 ≠
      sorted.getD ((segmentOffsets sorted).getD j2 0) 0 := by
  have := seg_value_strict_mono sorted hsorted (j2 - j1 - 1) j1 (by omega)
  have harith : j1 + (j2 - j1 - 1) + 1 = j2 := by omega
  rw [harith] at this
  omega

/-- A position carries segment `j`'s value exactly when it lies in segment
`j`'s range. -/
theorem segment_value_iff (sorted : List Int) (hsorted : sorted.Pairwise (· ≤ ·))
    (j : Nat) (hj : j < (segmentOffsets sorted).length) (t : Nat) (ht : t < sorted.length) :
    ((segmentOffsets sorted).getD j 0 ≤ t ∧
      t < segEndAt (segmentOffsets sorted) sorted.length j) ↔
    sorted.getD t 0 = sorted.getD ((segmentOffsets sorted).getD j 0) 0 := by
  constructor
  · rintro ⟨h1, h2⟩
    exact segment_constant sorted j hj t h1 h2
  · intro hval
    have hne : sorted ≠ [] := by
      intro h
      rw [h] at ht
      simp at ht
    obtain ⟨j', hj', hle, hlt⟩ := cut_cover_exists (segmentOffsets sorted) sorted.length t
      (segmentOffsets_pairwise sorted) (segmentOffsets_bound sorted) ht
      (segmentOffsets_ne_nil sorted hne)
      (by rw [segmentOffsets_getD_zero sorted hne]; omega)
    have hval' : sorted.getD t 0 = sorted.getD ((segmentOffsets sorted).getD j' 0) 0 := by
      apply segment_constant sorted j' hj' t hle
      unfold segEndAt
      exact hlt
    have hjj : j' = j := by
      by_contra hne2
      rcases Nat.lt_or_ge j' j with h | h
      · exact seg_value_ne sorted hsorted j' j h hj (hval'.symm.trans hval)
      · have hlt2 : j < j' := by omega
        exact seg_value_ne sorted hsorted j j' hlt2 hj' (hval.symm.trans hval')
    subst hjj
    refine ⟨hle, ?_⟩
    unfold segEndAt
    exact hlt

/-! ### Filter-sum bridges (Claim C1) -/

theorem getD_range (n t : Nat) (ht : t < n) : (List.range n).getD t 0 = t := by
  rw [List.getD_eq_getElem _ _ (by simpa using ht)]
  simp

/-- Summing a map over the positions that satisfy a predicate equal to "lies in
`[s, e)`" is the range sum over `[s, e)`. -/
theorem filter_range_sum (F : Nat → ℚ) (n s e : Nat) (pred : Nat → Bool)
    (hs : s ≤ e) (hen : e ≤ n)
    (hiff : ∀ t, t < n → (pred t = true ↔ (s ≤ t ∧ t < e))) :
    (((List.range n).filter pred).map F).sum = sumRange F s e := by
  have hsplit1 : List.range n = List.range' 0 s ++ List.range' s (n - s) := by
    rw [List.range_eq_range']
    have key := List.range'_append_1 0 s (n - s)
    simp only [Nat.zero_add] at key
    rw [show n - s + s = n by omega] at key
    rw [key]
  have hsplit2 : List.range' s (n - s) = List.range' s (e - s) ++ List.range' e (n - e) := by
    have key := List.range'_append_1 s (e - s) (n - e)
    rw [show s + (e - s) = e by omega, show n - e + (e - s) = n - s by omega] at key
    rw [key]
  rw [hsplit1, hsplit2, List.filter_append, List.filter_append]
  have hf1 : (List.range' 0 s).filter pred = [] := by
    rw [List.filter_eq_nil_iff]
    intro t htmem
    have hb := mem_range'_bound htmem
    intro hp
    have := (hiff t (by omega)).mp hp
    omega
  have hf3 : (List.range' e (n - e)).filter pred = [] := by
    rw [List.filter_eq_nil_iff]
    intro t htmem
    have hb := mem_range'_bound htmem
    intro hp
    have := (hiff t (by omega)).mp hp
    omega
  have hf2 : (List.range' s (e - s)).filter pred = List.range' s (e - s) := by
    rw [List.filter_eq_self]
    intro t htmem
    have hb := mem_range'_bound htmem
    exact (hiff t (by omega)).mpr (by omega)
  rw [hf1, hf2, hf3]
  simp [sumRange]

/-- The position-indexed filtered sum equals the pair-indexed filtered sum over
the zip of values and positions. -/
theorem filter_sum_zip (grad : List ℚ) (r : Int) :
    ∀ (vals : List Int) (pos : List Nat), vals.length = pos.length →
      (((List.range vals.length).filter (fun t => decide (vals.getD t 0 = r))).map
        (fun t => grad.getD (pos.getD t 0) 0)).sum =
      (((vals.zip pos).filter (fun p => decide (p.1 = r))).map
        (fun p => grad.getD p.2 0)).sum := by
  intro vals
  induction vals with
  | nil => intro pos _; simp
  | cons v vs ih =>
    intro pos hlen
    cases pos with
    | nil => simp at hlen
    | cons p ps =>
      have hlen' : vs.length = ps.length := by simpa using hlen
      rw [show (v :: vs).length = vs.length + 1 by simp, List.range_succ_eq_map]
      rw [List.filter_cons, List.zip_cons_cons, List.filter_cons]
      have hfm : (List.map Nat.succ (List.range vs.length)).filter
          (fun t => decide ((v :: vs).getD t 0 = r)) =
          List.map Nat.succ ((List.range vs.length).filter
            (fun t => decide (vs.getD t 0 = r))) := by
        rw [List.filter_map]
        apply congrArg
        apply List.filter_congr
        intro t _
        simp [Function.comp]
      by_cases hv : v = r
      · rw [if_pos (by simpa using hv), if_pos (by simpa using hv)]
        simp only [List.map_cons, List.sum_cons, List.getD_cons_zero]
        rw [hfm, List.map_map]
        have hmm : ((fun t => grad.getD ((p :: ps).getD t 0) 0) ∘ Nat.succ) =
            (fun t => grad.getD (ps.getD t 0) 0) := by
          funext t
          simp [Function.comp]
        rw [hmm, ih ps hlen']
      · rw [if_neg (by simpa using hv), if_neg (by simpa using hv)]
        rw [hfm, List.map_map]
        have hmm : ((fun t => grad.getD ((p :: ps).getD t 0) 0) ∘ Nat.succ) =
            (fun t => grad.getD (ps.getD t 0) 0) := by
          funext t
          simp [Function.comp]
        rw [hmm, ih ps hlen']

theorem mem_zip_getD {vals : List Int} {pos : List Nat} (t : Nat)
    (ht : t < vals.length) (hlen : vals.length = pos.length) :
    (vals.getD t 0, pos.getD t 0) ∈ vals.zip pos := by
  have hz := getD_zip vals pos 0 0 t ht (by omega)
  rw [← hz]
  apply getD_mem
  rw [List.length_zip]
  omega


/-- Claim C1: gradient conservation of the dense sum backward (mode SUM,
frequency scaling off, `count` undefined).  For every index stream, given the
sort stage's outputs (a permutation of the `(index, position)` pairs ordered by
index value), every output gradient row equals the sum of the gradient rows
routed to that index — no contribution lost or duplicated; rows whose index
never occurs stay zero (the empty sum). -/
theorem claim_C1_gradient_conservation (grad : List ℚ) (indices sorted_indices : List Int)
    (orig_indices : List Nat) (num_weights : Nat)
    (hlen_s : sorted_indices.length = indices.length)
    (hlen_o : orig_indices.length = indices.length)
    (hperm : (sorted_indices.zip orig_indices).Perm
      (indices.zip (List.range indices.length)))
    (hsorted : sorted_indices.Pairwise (· ≤ ·))
    (hvalid : ∀ x ∈ indices, 0 ≤ x ∧ x.toNat < num_weights) :
    ∀ r, r < num_weights →
      (embedding_bag_backward_dpcpp_sum_avg grad indices orig_indices sorted_indices
        num_weights).getD r 0 =
      (((List.range indices.length).filter
        (fun i => decide (indices.getD i 0 = (r : Int)))).map
        (fun i => grad.getD i 0)).sum := by
  intro r hr
  by_cases hempty : indices.length = 0
  · unfold embedding_bag_backward_dpcpp_sum_avg
    rw [if_pos hempty, hempty, getD_replicate_zero]
    simp
  have hn : 0 < indices.length := Nat.pos_of_ne_zero hempty
  have hsne : sorted_indices ≠ [] := by
    intro h
    rw [h] at hlen_s
    simp at hlen_s
    omega
  have hpw := segmentOffsets_pairwise sorted_indices
  have hbd := segmentOffsets_bound sorted_indices
  have hone : segmentOffsets sorted_indices ≠ [] := segmentOffsets_ne_nil _ hsne
  set offs := segmentOffsets sorted_indices with hoffs
  set numel := sorted_indices.length with hnumel
  set P := krn_partials_per_segment offs numel with hP
  set scan := exclusiveScan P 0 with hscan
  have hker : embedding_bag_backward_dpcpp_sum_avg grad indices orig_indices sorted_indices
      num_weights =
      sum_and_scatter sorted_indices (List.replicate num_weights 0) offs
        (compute_grad_weight orig_indices grad none numel
          (krn_partial_segment_offset
            (List.replicate (P.getD (offs.length - 1) 0 + scan.getD (offs.length - 1) 0) 0)
            P scan offs)
          (P.getD (offs.length - 1) 0 + scan.getD (offs.length - 1) 0))
        scan (P.getD (offs.length - 1) 0 + scan.getD (offs.length - 1) 0) (-1) := by
    unfold embedding_bag_backward_dpcpp_sum_avg
    rw [if_neg hempty]
    rfl
  rw [hker]
  have hnp : P.getD (offs.length - 1) 0 + scan.getD (offs.length - 1) 0 = P.sum :=
    np_eq_sum offs numel hone
  rw [hnp]
  have hA : krn_partial_segment_offset (List.replicate P.sum 0) P scan offs =
      ((offs.zip P).map (fun sc => chunkStarts sc.1 sc.2)).flatten :=
    krn_pso_flatten offs numel
  rw [hA]
  have hplen : P.length = offs.length := krn_partials_length offs numel
  have hlenA : (((offs.zip P).map (fun sc => chunkStarts sc.1 sc.2)).flatten).length =
      P.sum := by
    rw [List.length_flatten, List.map_map]
    have h1 : (List.length ∘ fun sc : Nat × Nat => chunkStarts sc.1 sc.2) = Prod.snd := by
      funext sc
      simp [Function.comp, chunkStarts_length]
    rw [h1]
    have h2 : (offs.zip P).map Prod.snd = P := by
      apply List.map_snd_zip
      omega
    rw [h2]
  have hgwps : compute_grad_weight orig_indices grad none numel
      (((offs.zip P).map (fun sc => chunkStarts sc.1 sc.2)).flatten) P.sum =
      cutSums (fun idx => grad.getD (orig_indices.getD idx 0) 0)
        (((offs.zip P).map (fun sc => chunkStarts sc.1 sc.2)).flatten) numel := by
    rw [compute_grad_weight_eq_map, ← hlenA]
    exact map_range_cutSums (fun idx => grad.getD (orig_indices.getD idx 0) 0) _ numel
  rw [hgwps]
  have hw : ∀ j, j < offs.length →
      (scatterF sorted_indices offs
        (cutSums (fun idx => grad.getD (orig_indices.getD idx 0) 0)
          (((offs.zip P).map (fun sc => chunkStarts sc.1 sc.2)).flatten) numel)
        scan P.sum j).2 =
      sumRange (fun idx => grad.getD (orig_indices.getD idx 0) 0) (offs.getD j 0)
        (segEndAt offs numel j) := by
    intro j hj
    exact pipeline_weights (fun idx => grad.getD (orig_indices.getD idx 0) 0) offs P scan
      ((offs.zip P).map (fun sc => chunkStarts sc.1 sc.2)) numel hpw hbd hone hP hscan rfl
      j hj
  have htgt : ∀ j,
      (scatterF sorted_indices offs
        (cutSums (fun idx => grad.getD (orig_indices.getD idx 0) 0)
          (((offs.zip P).map (fun sc => chunkStarts sc.1 sc.2)).flatten) numel)
        scan P.sum j).1 = sorted_indices.getD (offs.getD j 0) 0 := by
    intro j
    rfl
  have hv_sorted : ∀ x ∈ sorted_indices, 0 ≤ x ∧ x.toNat < num_weights := by
    intro x hx
    rcases List.mem_iff_getElem.mp hx with ⟨t, ht, hxe⟩
    have hmem := @mem_zip_getD sorted_indices orig_indices t ht (by omega)
    have hmem2 := (List.Perm.mem_iff hperm).mp hmem
    have hfst : sorted_indices.getD t 0 ∈ indices := (List.of_mem_zip hmem2).1
    have hxg : sorted_indices.getD t 0 = x := by
      rw [List.getD_eq_getElem _ _ ht, hxe]
    rw [hxg] at hfst
    exact hvalid x hfst
  have htgt_valid : ∀ j, j < offs.length →
      0 ≤ sorted_indices.getD (offs.getD j 0) 0 ∧
      (sorted_indices.getD (offs.getD j 0) 0).toNat < num_weights := by
    intro j hj
    have hpos : offs.getD j 0 < numel := hbd _ (getD_mem hj)
    exact hv_sorted _ (getD_mem hpos)
  by_cases hocc : ∃ j, j < offs.length ∧ sorted_indices.getD (offs.getD j 0) 0 = (r : Int)
  · obtain ⟨j, hj, hvj⟩ := hocc
    have hpost : ∀ id' ∈ List.range' (j + 1) (offs.length - (j + 1)),
        (scatterF sorted_indices offs
          (cutSums (fun idx => grad.getD (orig_indices.getD idx 0) 0)
            (((offs.zip P).map (fun sc => chunkStarts sc.1 sc.2)).flatten) numel)
          scan P.sum id').1 = (-1 : Int) ∨
        ((scatterF sorted_indices offs
          (cutSums (fun idx => grad.getD (orig_indices.getD idx 0) 0)
            (((offs.zip P).map (fun sc => chunkStarts sc.1 sc.2)).flatten) numel)
          scan P.sum id').1).toNat ≠ r := by
      intro id' hid'
      have hbnd := mem_range'_bound hid'
      have hik : id' < offs.length := by omega
      refine Or.inr ?_
      rw [htgt id']
      intro htn
      have h1 := (htgt_valid id' hik).1
      have heq : sorted_indices.getD (offs.getD id' 0) 0 = (r : Int) := by omega
      exact seg_value_ne sorted_indices hsorted j id' (by omega) hik
        (hvj.trans heq.symm)
    rw [sum_and_scatter_eq_fold, range_split offs.length j hj]
    rw [scatter_fold_write
      (scatterF sorted_indices offs
        (cutSums (fun idx => grad.getD (orig_indices.getD idx 0) 0)
          (((offs.zip P).map (fun sc => chunkStarts sc.1 sc.2)).flatten) numel)
        scan P.sum) (-1)
      (List.range j) (List.range' (j + 1) (offs.length - (j + 1))) j
      (List.replicate num_weights 0) r (by simpa using hr)
      (by rw [htgt j, hvj]; omega)
      (by rw [htgt j, hvj]; omega)
      hpost]
    rw [hw j hj]
    -- identify the per-segment sum with the claimed filtered sum
    have hsz := seg_size_pos offs numel hpw hbd j hj
    have hend_le : segEndAt offs numel j ≤ numel := by
      unfold segEndAt
      by_cases hlast : j = offs.length - 1
      · rw [if_pos hlast]
      · rw [if_neg hlast]
        exact le_of_lt (hbd _ (getD_mem (by omega)))
    have hiff : ∀ t, t < numel →
        ((fun t => decide (sorted_indices.getD t 0 = (r : Int))) t = true ↔
          (offs.getD j 0 ≤ t ∧ t < segEndAt offs numel j)) := by
      intro t ht
      show decide (sorted_indices.getD t 0 = (r : Int)) = true ↔ _
      rw [decide_eq_true_eq]
      constructor
      · intro hst
        apply (segment_value_iff sorted_indices hsorted j hj t ht).mpr
        rw [hst]
        exact hvj.symm
      · intro hrange
        have hval := (segment_value_iff sorted_indices hsorted j hj t ht).mp hrange
        rw [hval]
        exact hvj
    have hfilt := filter_range_sum (fun idx => grad.getD (orig_indices.getD idx 0) 0)
      numel (offs.getD j 0) (segEndAt offs numel j)
      (fun t => decide (sorted_indices.getD t 0 = (r : Int)))
      (le_of_lt hsz) hend_le hiff
    rw [← hfilt]
    have hz1 := filter_sum_zip grad r sorted_indices orig_indices (by omega)
    have hz2 := filter_sum_zip grad r indices (List.range indices.length) (by simp)
    have hpermsum :
        (((sorted_indices.zip orig_indices).filter (fun p => decide (p.1 = (r : Int)))).map
          (fun p => grad.getD p.2 0)).sum =
        (((indices.zip (List.range indices.length)).filter
          (fun p => decide (p.1 = (r : Int)))).map (fun p => grad.getD p.2 0)).sum :=
      List.Perm.sum_eq (List.Perm.map _ (List.Perm.filter _ hperm))
    rw [hz1, hpermsum, ← hz2]
    apply congrArg
    apply List.map_congr_left
    intro t htm
    have htr : t ∈ List.range indices.length := List.mem_of_mem_filter htm
    rw [getD_range _ _ (List.mem_range.mp htr)]
  · rw [sum_and_scatter_eq_fold]
    rw [scatter_fold_preserve
      (scatterF sorted_indices offs
        (cutSums (fun idx => grad.getD (orig_indices.getD idx 0) 0)
          (((offs.zip P).map (fun sc => chunkStarts sc.1 sc.2)).flatten) numel)
        scan P.sum) (-1) (List.range offs.length) _ r ?_]
    · rw [getD_replicate_zero]
      have hfilt_nil : (List.range indices.length).filter
          (fun i => decide (indices.getD i 0 = (r : Int))) = [] := by
        rw [List.filter_eq_nil_iff]
        intro i hi hdec
        have hilen : i < indices.length := List.mem_range.mp hi
        have hieq : indices.getD i 0 = (r : Int) := of_decide_eq_true hdec
        have hpair : (indices.getD i 0, i) ∈ indices.zip (List.range indices.length) := by
          have hzp := @mem_zip_getD indices (List.range indices.length)
            i hilen (by simp)
          rw [getD_range _ _ hilen] at hzp
          exact hzp
        have hpair2 := (List.Perm.mem_iff hperm).mpr hpair
        have hx : indices.getD i 0 ∈ sorted_indices := (List.of_mem_zip hpair2).1
        rcases List.mem_iff_getElem.mp hx with ⟨t, ht, hte⟩
        have h0 : offs.getD 0 0 = 0 := segmentOffsets_getD_zero sorted_indices hsne
        obtain ⟨j', hj', hle, hlt⟩ := cut_cover_exists offs numel t hpw hbd (by omega)
          hone (by omega)
        have hvj' : sorted_indices.getD t 0 =
            sorted_indices.getD (offs.getD j' 0) 0 := by
          apply segment_constant sorted_indices j' hj' t hle
          unfold segEndAt
          exact hlt
        have hst : sorted_indices.getD t 0 = (r : Int) := by
          rw [List.getD_eq_getElem _ _ ht, hte, hieq]
        exact hocc ⟨j', hj', by rw [← hvj', hst]⟩
      rw [hfilt_nil]
      simp
    · intro id hid
      have hik : id < offs.length := List.mem_range.mp hid
      refine Or.inr ?_
      rw [htgt id]
      intro htn
      have h1 := (htgt_valid id hik).1
      have heq : sorted_indices.getD (offs.getD id 0) 0 = (r : Int) := by omega
      exact hocc ⟨id, hik, heq⟩

/-- Claim C1 witness: the claim's concrete check.  `indices = [3, 1, 3, 1, 3]`,
uniform gradient value `v = 7` per row, sorted stream `[1, 1, 3, 3, 3]` with
sort permutation `[1, 3, 0, 2, 4]`: every output row equals the sum of the
gradient rows routed to it (row 3 gets `3v`, row 1 gets `2v`, others `0`). -/
theorem claim_C1_gradient_conservation_witness :
    (embedding_bag_backward_dpcpp_sum_avg [7, 7, 7, 7, 7] [3, 1, 3, 1, 3] [1, 3, 0, 2, 4]
      [1, 1, 3, 3, 3] 5).getD 3 0 =
    (((List.range ([3, 1, 3, 1, 3] : List Int).length).filter
      (fun i => decide (([3, 1, 3, 1, 3] : List Int).getD i 0 = ((3 : Nat) : Int)))).map
      (fun i => ([7, 7, 7, 7, 7] : List ℚ).getD i 0)).sum :=
  claim_C1_gradient_conservation [7, 7, 7, 7, 7] [3, 1, 3, 1, 3] [1, 1, 3, 3, 3]
    [1, 3, 0, 2, 4] 5 (by decide) (by decide) (by decide) (by decide) (by decide)
    3 (by decide)
